import Mathlib

/-!
Verification of the release-revision integrity subsystem: the attestable
manifest store (`atr/attestable.py`), the three-way revision merge engine
(`atr/merge.py`), and the archive safe-iteration helper (`atr/tarzip.py`).
Python dicts are embedded as association lists with first-match lookup and
insert-or-replace update; filesystem effects are embedded as explicit state.
-/

set_option maxHeartbeats 1000000

namespace ATR

/-- Association-list embedding of a Python `dict` keyed by strings. -/
abbrev SMap (α : Type) := List (String × α)

/-- `m[k]` lookup returning `none` for a missing key. -/
def lookupM {α : Type} : SMap α → String → Option α
  | [], _ => none
  | (k', v) :: rest, k => if k' = k then some v else lookupM rest k

/-- `m[k] = v`: replace the value at an existing key, else append the pair. -/
def insertM {α : Type} : SMap α → String → α → SMap α
  | [], k, v => [(k, v)]
  | (k', v') :: rest, k, v =>
      if k' = k then (k, v) :: rest else (k', v') :: insertM rest k v

/-- `m.pop(k, None)`: drop the entry at `k` when present. -/
def eraseM {α : Type} : SMap α → String → SMap α
  | [], _ => []
  | (k', v') :: rest, k => if k' = k then rest else (k', v') :: eraseM rest k

/-- `k in m` membership test. -/
def memM {α : Type} (m : SMap α) (k : String) : Bool :=
  (lookupM m k).isSome

/-- Number of occurrences of a pair in an uploaders list. -/
def countOcc (pr : String × String) : List (String × String) → Nat
  | [] => 0
  | y :: ys => (if y = pr then 1 else 0) + countOcc pr ys

/-! ### Attestable manifest model (`atr/attestable.py`, `atr/models/attestable.py`) -/

/-- `models.HashEntry`: size plus ordered `(uploader_uid, revision_number)` pairs. -/
structure HashEntry where
  size : Nat
  uploaders : List (String × String)
deriving Repr, DecidableEq

/-- `models.AttestableV1`: full manifest of one revision. The policy blob is
opaque to every operation verified here, so it is carried as a string map. -/
structure AttestableV1 where
  paths : SMap String
  hashes : SMap HashEntry
  policy : SMap String
deriving Repr, DecidableEq

/-- `setdefault(hash_ref, set()).add(path_key)`: group a path under its hash;
a Python set is embedded as a duplicate-free list in insertion order. -/
def addToGroup (m : SMap (List String)) (h : String) (p : String) : SMap (List String) :=
  match lookupM m h with
  | some ps => insertM m h (if p ∈ ps then ps else ps ++ [p])
  | none => m ++ [(h, [p])]

/-- Build `hash -> set of paths` from a `path -> hash` map, as both
`_generate_files_data` and `_compute_hashes_with_attribution` do. -/
def groupByHash (pth : SMap String) : SMap (List String) :=
  pth.foldl (fun acc kv => addToGroup acc kv.2 kv.1) []

/-- `next(iter(current_paths))`: an arbitrary element of a nonempty path set,
embedded as the first element of the insertion-ordered list. -/
def sampleOf (ps : List String) : String := ps.headD ""

/-- The per-hash loop of `_compute_hashes_with_attribution`: walk the grouped
current hashes, threading the accumulated `new_hashes` map; a missing
`path_to_size[sample_path]` key is the Python `KeyError`. -/
def attribLoop (sizes : SMap Nat) (prevH2P : SMap (List String)) (u r : String) :
    List (String × List String) → SMap HashEntry → Except Unit (SMap HashEntry)
  | [], acc => .ok acc
  | (hashRef, currentPaths) :: rest, acc =>
    match lookupM sizes (sampleOf currentPaths) with
    | none => .error ()
    | some fileSize =>
      let acc' :=
        match lookupM acc hashRef with
        | none => insertM acc hashRef ⟨fileSize, [(u, r)]⟩
        | some entry =>
          if currentPaths.length > ((lookupM prevH2P hashRef).getD []).length then
            if (u, r) ∈ entry.uploaders then acc
            else insertM acc hashRef ⟨entry.size, entry.uploaders ++ [(u, r)]⟩
          else acc
      attribLoop sizes prevH2P u r rest acc'

/-- `_compute_hashes_with_attribution`: carry previous entries forward, then
attribute each current hash per the path-count heuristic. -/
def computeHashesWithAttribution (current : SMap (List String)) (sizes : SMap Nat)
    (previous : Option AttestableV1) (u r : String) : Except Unit (SMap HashEntry) :=
  let prevH2P : SMap (List String) :=
    match previous with
    | some p => groupByHash p.paths
    | none => []
  let init : SMap HashEntry :=
    match previous with
    | some p => p.hashes
    | none => []
  attribLoop sizes prevH2P u r current init

/-- `_generate_files_data`: group current paths by hash, compute attribution,
assemble the new manifest. -/
def generateFilesData (pathToHash : SMap String) (pathToSize : SMap Nat)
    (revisionNumber : String) (releasePolicy : Option (SMap String))
    (uploaderUid : String) (previous : Option AttestableV1) : Except Unit AttestableV1 :=
  match computeHashesWithAttribution (groupByHash pathToHash) pathToSize previous
      uploaderUid revisionNumber with
  | .error e => .error e
  | .ok newHashes => .ok ⟨pathToHash, newHashes, releasePolicy.getD []⟩

/-! ### Hashing/path-walk step (`paths_to_hashes_and_sizes`) -/

instance {ε α : Type} [DecidableEq ε] [DecidableEq α] : DecidableEq (Except ε α) := fun x y =>
  match x, y with
  | .ok a, .ok b =>
    if h : a = b then isTrue (by rw [h])
    else isFalse (by intro hh; injection hh; contradiction)
  | .error a, .error b =>
    if h : a = b then isTrue (by rw [h])
    else isFalse (by intro hh; injection hh; contradiction)
  | .ok _, .error _ => isFalse (by intro hh; exact Except.noConfusion hh)
  | .error _, .ok _ => isFalse (by intro hh; exact Except.noConfusion hh)

/-- Result of the walk plus the trace of files that were opened for hashing. -/
structure ScanResult where
  outcome : Except Unit (SMap String × SMap Nat)
  opened : List String
deriving Repr, DecidableEq

/-- The Python membership test for a backslash character in a path string. -/
def hasBackslash (p : String) : Bool := p.data.contains '\\'

/-- The loop of `paths_to_hashes_and_sizes`: for each relative path yielded by
the walk, reject a backslash before opening that path's file, else hash and
stat it. `fileHash`/`fileSize` are the filesystem oracles; `opened` records
every file opened for hashing. -/
def scanLoop (fileHash : String → String) (fileSize : String → Nat) :
    List String → SMap String → SMap Nat → List String → ScanResult
  | [], pth, psz, opened => ⟨.ok (pth, psz), opened⟩
  | p :: rest, pth, psz, opened =>
    if hasBackslash p then ⟨.error (), opened⟩
    else scanLoop fileHash fileSize rest
      (insertM pth p (fileHash p)) (insertM psz p (fileSize p)) (opened ++ [p])

/-- `paths_to_hashes_and_sizes`, over the sequence of relative paths the
directory walk yields. -/
def pathsToHashesAndSizes (fileHash : String → String) (fileSize : String → Nat)
    (entries : List String) : ScanResult :=
  scanLoop fileHash fileSize entries [] [] []

/-! ### Manifest write (`write_files_data`) -/

/-- What a persisted artifact contains. -/
inductive WritePayload where
  | fullManifest (m : AttestableV1)
  | pathsOnly (paths : SMap String)
  | emptyChecks
deriving Repr, DecidableEq

/-- How an artifact reaches the filesystem: via write-to-temp-then-rename, or
via a direct open-and-write of the target path. -/
inductive WriteEvent where
  | tempThenRename (target : String) (payload : WritePayload)
  | plainWrite (target : String) (payload : WritePayload)
deriving Repr, DecidableEq

/-- `attestable_path`: `<dir>/<project>/<version>/<revision>.json`. -/
def attestablePath (root project version rev : String) : String :=
  root ++ "/" ++ project ++ "/" ++ version ++ "/" ++ rev ++ ".json"

/-- `attestable_paths_path`: `<dir>/<project>/<version>/<revision>.paths.json`. -/
def attestablePathsPath (root project version rev : String) : String :=
  root ++ "/" ++ project ++ "/" ++ version ++ "/" ++ rev ++ ".paths.json"

/-- `attestable_checks_path`: `<dir>/<project>/<version>/<revision>.checks.json`. -/
def attestableChecksPath (root project version rev : String) : String :=
  root ++ "/" ++ project ++ "/" ++ version ++ "/" ++ rev ++ ".checks.json"

/-- Modelled from the spec: `util.atomic_write_file` is not under `src/`; the
spec specifies write-to-temp-then-rename semantics for it, recorded here as a
single `tempThenRename` event. -/
def atomicWriteFile (target : String) (payload : WritePayload) : WriteEvent :=
  .tempThenRename target payload

/-- `write_files_data`: generate the manifest, atomically write it and the
paths-only projection, then — when the checks index does not already exist —
create it with a direct `open(..., "w")` write (no temp-then-rename). -/
def writeFilesData (root project version rev : String) (releasePolicy : Option (SMap String))
    (uploader : String) (previous : Option AttestableV1) (pathToHash : SMap String)
    (pathToSize : SMap Nat) (checksExists : Bool) : Except Unit (List WriteEvent) :=
  match generateFilesData pathToHash pathToSize rev releasePolicy uploader previous with
  | .error e => .error e
  | .ok result =>
    .ok ([atomicWriteFile (attestablePath root project version rev) (.fullManifest result),
          atomicWriteFile (attestablePathsPath root project version rev)
            (.pathsOnly result.paths)] ++
      (if checksExists then []
       else [.plainWrite (attestableChecksPath root project version rev) .emptyChecks]))

/-- Events of a `write_files_data` run, empty when generation failed. -/
def eventsOf (e : Except Unit (List WriteEvent)) : List WriteEvent :=
  match e with
  | .ok evs => evs
  | .error _ => []

/-- Does the event write its target without temp-then-rename? -/
def isPlainWrite : WriteEvent → Bool
  | .plainWrite _ _ => true
  | .tempThenRename _ _ => false

/-! ### Archive safe-iteration (`atr/tarzip.py`) -/

/-- A tar or zip member as seen by `ArchiveContext.__iter__`: only the name and
the device-node flag matter to the iteration logic (tar skips device members
before counting; zip members are never device nodes). -/
structure ArchiveMember where
  name : String
  isdev : Bool
deriving Repr, DecidableEq

/-- The generator body of `ArchiveContext.__iter__`: `skipDev` is true for the
tar branch and false for the zip branch, `count` is the running counter, and
the returned flag records whether `ArchiveMemberLimitExceededError` was raised.
The yielded members are those produced before any raise. -/
def iterMembers (skipDev : Bool) (maxMembers : Int) :
    List ArchiveMember → Nat → List ArchiveMember × Bool
  | [], _ => ([], false)
  | mem :: rest, count =>
    if skipDev && mem.isdev then iterMembers skipDev maxMembers rest count
    else if maxMembers > 0 then
      if (count + 1 : Int) > maxMembers then ([], true)
      else
        let res := iterMembers skipDev maxMembers rest (count + 1)
        (mem :: res.1, res.2)
    else
      let res := iterMembers skipDev maxMembers rest count
      (mem :: res.1, res.2)

/-- Iterating an `ArchiveContext` from the start (`count = 0`). -/
def archiveIter (skipDev : Bool) (maxMembers : Int) (members : List ArchiveMember) :
    List ArchiveMember × Bool :=
  iterMembers skipDev maxMembers members 0

/-- The members the iteration counts: everything except the device members the
tar branch silently skips. -/
def countedMembers (skipDev : Bool) (members : List ArchiveMember) : List ArchiveMember :=
  members.filter (fun mem => !(skipDev && mem.isdev))

/-! ### Three-way merge engine (`atr/merge.py`) -/

/-- A regular file as the merge sees it: its inode identity token, its content
hash, and its byte size. Hard-linking a file propagates all three. -/
structure FSFile where
  ino : Nat
  hash : String
  size : Nat
deriving Repr, DecidableEq

/-- Errors a merge call can raise: a `KeyError` from an unguarded dict lookup,
or an OS-level I/O failure (link/remove/stat/open). -/
inductive MergeErr where
  | keyError
  | ioError
deriving Repr, DecidableEq

/-- The mutable state of a merge call: the working tree `temp_dir` (regular
files and directories), the in-place-mutated `n_hashes`/`n_sizes` maps, the
lazily loaded prior paths projection, and how many times `attestable.load_paths`
has been invoked. -/
structure MergeSt where
  temp : SMap FSFile
  tempDirs : List String
  nHashes : SMap String
  nSizes : SMap Nat
  priorHashes : Option (SMap String)
  loadCount : Nat
deriving Repr, DecidableEq

/-- The read-only context of a merge call: the base inode/hash maps, the
contents of `prior_dir`, the pre-scanned new-revision inode map, and what
`attestable.load_paths` would return (`none` embeds a missing or unparsable
projection file). -/
structure MergeCtx where
  baseInodes : SMap Nat
  baseHashes : SMap String
  priorFS : SMap FSFile
  nInodes : SMap Nat
  loadResult : Option (SMap String)
deriving Repr, DecidableEq

/-- `util.paths_to_inodes(prior_dir)`: the prior tree's path-to-inode map. -/
def priorInodes (ctx : MergeCtx) : SMap Nat :=
  ctx.priorFS.map (fun kv => (kv.1, kv.2.ino))

/-- Code-point lexicographic comparison of character lists (Python string
ordering). -/
def chListLt : List Char → List Char → Bool
  | [], [] => false
  | [], _ :: _ => true
  | _ :: _, [] => false
  | a :: as, b :: bs =>
    if a.toNat < b.toNat then true
    else if b.toNat < a.toNat then false
    else chListLt as bs

/-- `a <= b` in Python string order. -/
def strLeB (a b : String) : Bool := !(chListLt b.data a.data)

/-- Insert into a sorted list, keeping it sorted. -/
def insertSorted (x : String) : List String → List String
  | [] => [x]
  | y :: ys => if strLeB x y then x :: y :: ys else y :: insertSorted x ys

/-- Python `sorted` over strings (insertion sort; order is all that matters). -/
def sortStrings (l : List String) : List String := l.foldr insertSorted []

/-- Add an element to a duplicate-free list (set union building block). -/
def addUnique (acc : List String) (x : String) : List String :=
  if x ∈ acc then acc else acc ++ [x]

/-- Deduplicate, keeping first occurrences (Python set union of dict keys). -/
def unionKeys (ls : List String) : List String := ls.foldl addUnique []

/-- `path.split("/")` over the character list, structurally. -/
def splitSlash : List Char → List (List Char)
  | [] => [[]]
  | c :: rest =>
    if c = '/' then [] :: splitSlash rest
    else
      match splitSlash rest with
      | [] => [[c]]
      | g :: gs => (c :: g) :: gs

/-- `"/".join(parts[:i]) for i in range(1, len(parts))`: every proper directory
prefix of a relative path. -/
def properPrefixes (p : String) : List String :=
  let parts := splitSlash p.data
  ((List.range parts.length).drop 1).map (fun i => String.mk (List.intercalate ['/'] (parts.take i)))

/-- The implicit directory paths implied by the new tree's file paths. -/
def nDirs (ni : SMap Nat) : List String :=
  ni.foldl (fun acc kv => acc ++ properPrefixes kv.1) []

/-- `_has_type_conflict`: the prior path collides with an implicit directory of
the new tree, or one of its proper prefixes is a plain file in the new tree. -/
def hasTypeConflict (path : String) (ni : SMap Nat) (dirs : List String) : Bool :=
  dirs.any (fun q => q = path) || (properPrefixes path).any (fun q => memM ni q)

/-- `if prior_hashes is None: prior_hashes = await attestable.load_paths(...)`:
the lazy load point, counting each invocation of the loader. -/
def loadPrior (ctx : MergeCtx) (st : MergeSt) : MergeSt :=
  match st.priorHashes with
  | some _ => st
  | none => { st with priorHashes := ctx.loadResult, loadCount := st.loadCount + 1 }

/-- The refreshed hash for a linked-in file: the loaded prior projection's
entry when available, else the hash computed from the linked file itself. -/
def chosenHash (st : MergeSt) (path : String) (fallback : String) : String :=
  match st.priorHashes with
  | some ph =>
    match lookupM ph path with
    | some hh => hh
    | none => fallback
  | none => fallback

/-- The common tail of `_add_from_prior` and `_replace_with_prior` after the
hard link is in place: lazily load the prior projection, then refresh
`n_hashes[path]` (projection-preferred, else the linked file's hash) and
`n_sizes[path]` (from the linked file's stat). -/
def linkRefresh (ctx : MergeCtx) (path : String) (f : FSFile) (st : MergeSt) : MergeSt :=
  MergeSt.mk (loadPrior ctx st).temp (loadPrior ctx st).tempDirs
    (insertM (loadPrior ctx st).nHashes path (chosenHash (loadPrior ctx st) path f.hash))
    (insertM (loadPrior ctx st).nSizes path f.size)
    (loadPrior ctx st).priorHashes (loadPrior ctx st).loadCount

/-- `_add_from_prior`: create parent directories, hard-link the prior file into
the working tree (failing if the source is gone or the target exists), lazily
load the prior projection, refresh hash and size. -/
def addFromPrior (ctx : MergeCtx) (path : String) (st : MergeSt) : Except MergeErr MergeSt :=
  match lookupM ctx.priorFS path with
  | none => .error .ioError
  | some f =>
    if memM st.temp path then .error .ioError
    else .ok (linkRefresh ctx path f
      { st with tempDirs := st.tempDirs ++ properPrefixes path, temp := insertM st.temp path f })

/-- `_replace_with_prior`: remove the working-tree file (failing if absent),
hard-link the prior file in its place, lazily load the prior projection,
refresh hash and size. -/
def replaceWithPrior (ctx : MergeCtx) (path : String) (st : MergeSt) : Except MergeErr MergeSt :=
  if memM st.temp path = false then .error .ioError
  else
    match lookupM ctx.priorFS path with
    | none => .error .ioError
    | some f =>
      .ok (linkRefresh ctx path f { st with temp := insertM (eraseM st.temp path) path f })

/-- `_content_matches`: same inode, else same hash. -/
def contentMatches (bIno nIno : Nat) (bHash nHash : String) : Bool :=
  if bIno = nIno then true else bHash = nHash

/-- `hashes.compute_file_hash(prior_dir / path)`: hash the prior tree's file,
failing with an I/O error when it does not exist. -/
def priorFileHash (ctx : MergeCtx) (path : String) : Except MergeErr String :=
  match lookupM ctx.priorFS path with
  | some f => .ok f.hash
  | none => .error .ioError

/-- `_merge_all_present`: the all-three-present decision cascade of the merge,
in source order. -/
def mergeAllPresent (ctx : MergeCtx) (path : String) (bIno pIno nIno : Nat) (st : MergeSt) :
    Except MergeErr MergeSt :=
  if pIno = nIno then .ok st
  else if bIno = pIno then .ok st
  else if bIno = nIno then replaceWithPrior ctx path st
  else
    match lookupM ctx.baseHashes path with
    | none => .error .keyError
    | some bHash =>
      match lookupM st.nHashes path with
      | none => .error .keyError
      | some nHash =>
        if bHash = nHash then
          match (match (loadPrior ctx st).priorHashes with
                 | some ph =>
                   match lookupM ph path with
                   | some hh => Except.ok hh
                   | none => priorFileHash ctx path
                 | none => priorFileHash ctx path) with
          | .error e => .error e
          | .ok pHash =>
            if pHash ≠ bHash then replaceWithPrior ctx path (loadPrior ctx st)
            else .ok (loadPrior ctx st)
        else .ok st

/-- One iteration of the merge's per-path loop, dispatching on presence in
(base, prior, new). -/
def mergeStep (ctx : MergeCtx) (path : String) (st : MergeSt) : Except MergeErr MergeSt :=
  match lookupM ctx.baseInodes path, lookupM (priorInodes ctx) path, lookupM ctx.nInodes path with
  | none, some _, none =>
    if hasTypeConflict path ctx.nInodes (nDirs ctx.nInodes) then .ok st
    else if st.tempDirs.any (fun q => q = path) then .ok st
    else addFromPrior ctx path st
  | some bIno, none, some nIno =>
    match lookupM ctx.baseHashes path with
    | none => .error .keyError
    | some bHash =>
      match lookupM st.nHashes path with
      | none => .error .keyError
      | some nHash =>
        if contentMatches bIno nIno bHash nHash then
          if memM st.temp path = false then .error .ioError
          else .ok { st with temp := eraseM st.temp path,
                             nHashes := eraseM st.nHashes path,
                             nSizes := eraseM st.nSizes path }
        else .ok st
  | some bIno, some pIno, some nIno => mergeAllPresent ctx path bIno pIno nIno st
  | _, _, _ => .ok st

/-- The sorted union of the three path sets. -/
def allPaths (ctx : MergeCtx) : List String :=
  sortStrings (unionKeys (ctx.baseInodes.map (fun kv => kv.1) ++
    (priorInodes ctx).map (fun kv => kv.1) ++ ctx.nInodes.map (fun kv => kv.1)))

/-- The merge's per-path loop over the sorted paths, aborting on the first
error. -/
def mergeLoop (ctx : MergeCtx) : List String → MergeSt → Except MergeErr MergeSt
  | [], st => .ok st
  | p :: rest, st =>
    match mergeStep ctx p st with
    | .error e => .error e
    | .ok st' => mergeLoop ctx rest st'

/-- `merge`: scan prior inodes, start with an unloaded prior projection and a
zero load count, and process every path in sorted order. -/
def merge (ctx : MergeCtx) (temp0 : SMap FSFile) (dirs0 : List String)
    (nh0 : SMap String) (ns0 : SMap Nat) : Except MergeErr MergeSt :=
  mergeLoop ctx (allPaths ctx) ⟨temp0, dirs0, nh0, ns0, none, 0⟩

/-- Spec-side (claim C2) prior hash: taken from the prior projection when the
load yields one and it covers the path, else computed by hashing `prior_dir`'s
file. -/
def specPriorHash (ctx : MergeCtx) (path : String) : Except MergeErr String :=
  match ctx.loadResult with
  | some ph =>
    match lookupM ph path with
    | some hh => .ok hh
    | none => priorFileHash ctx path
  | none => priorFileHash ctx path

/-- Spec-side (claim C2) replacement decision for an all-three-present path,
written from the claim's priority list: prior/new agree — nothing; base/prior
agree — nothing; base/new agree — replace; equal base and new hashes with a
differing prior hash — replace; anything else — nothing (new wins). -/
def specReplaceDecision (ctx : MergeCtx) (path : String) (bIno pIno nIno : Nat)
    (nHash? : Option String) : Except MergeErr Bool :=
  if pIno = nIno then .ok false
  else if bIno = pIno then .ok false
  else if bIno = nIno then .ok true
  else
    match lookupM ctx.baseHashes path, nHash? with
    | some bHash, some nHash =>
      if bHash = nHash then
        match specPriorHash ctx path with
        | .error e => .error e
        | .ok pHash => .ok (decide (pHash ≠ bHash))
      else .ok false
    | _, _ => .error .keyError

/-- Does the cascade consult prior-revision hash data for this path (the only
case in which the lazy projection load is triggered)? -/
def consultsPrior (ctx : MergeCtx) (path : String) (bIno pIno nIno : Nat)
    (nHash? : Option String) : Bool :=
  !(decide (pIno = nIno)) && !(decide (bIno = pIno)) && !(decide (bIno = nIno)) &&
    (match lookupM ctx.baseHashes path, nHash? with
     | some bHash, some nHash => decide (bHash = nHash)
     | _, _ => false)

/-- The projection-load cache of a merge state: the loaded projection (if any)
and how many loader invocations have happened. -/
def cacheOf (st : MergeSt) : Option (SMap String) × Nat := (st.priorHashes, st.loadCount)

/-- How one pass through a load point transforms the cache. -/
def cacheStep (ctx : MergeCtx) (c : Option (SMap String) × Nat) : Option (SMap String) × Nat :=
  match c.1 with
  | some _ => c
  | none => (ctx.loadResult, c.2 + 1)

/-- The precondition under which the merge's unguarded hash lookups are safe:
both hash maps cover every path present in both base and new inode maps. -/
def hashCoverage (ctx : MergeCtx) (nh : SMap String) : Prop :=
  ∀ q, memM ctx.baseInodes q = true → memM ctx.nInodes q = true →
    memM ctx.baseHashes q = true ∧ memM nh q = true

/-- Every prior path agrees (by inode) with the new tree or with the base tree:
the common case in which no path needs prior-revision manifest data. -/
def priorAgrees (ctx : MergeCtx) : Prop :=
  ∀ path f, lookupM ctx.priorFS path = some f →
    (lookupM ctx.nInodes path = some f.ino ∨ lookupM ctx.baseInodes path = some f.ino)

end ATR

namespace ATR

/-! ### Basic map lemmas -/

theorem lookupM_insert_self {α : Type} (m : SMap α) (k : String) (v : α) :
    lookupM (insertM m k v) k = some v := by
  induction m with
  | nil => simp [insertM, lookupM]
  | cons hd tl ih =>
    obtain ⟨k', v'⟩ := hd
    by_cases h : k' = k <;> simp [insertM, lookupM, h, ih]

theorem lookupM_insert_ne {α : Type} (m : SMap α) (k q : String) (v : α) (h : q ≠ k) :
    lookupM (insertM m k v) q = lookupM m q := by
  induction m with
  | nil => simp [insertM, lookupM, Ne.symm h]
  | cons hd tl ih =>
    obtain ⟨k', v'⟩ := hd
    by_cases hk : k' = k
    · subst hk
      simp [insertM, lookupM, Ne.symm h]
    · simp only [insertM, if_neg hk, lookupM]
      by_cases hq : k' = q
      · simp [hq]
      · simp [hq, ih]

theorem lookupM_mem {α : Type} {m : SMap α} {k : String} {v : α}
    (h : lookupM m k = some v) : (k, v) ∈ m := by
  induction m with
  | nil => simp [lookupM] at h
  | cons hd tl ih =>
    obtain ⟨k', v'⟩ := hd
    by_cases hk : k' = k
    · subst hk
      simp [lookupM] at h
      simp [h]
    · simp [lookupM, hk] at h
      exact List.mem_cons_of_mem _ (ih h)

theorem memM_insert {α : Type} (m : SMap α) (k q : String) (v : α) :
    memM (insertM m k v) q = (memM m q || (q = k : Bool)) := by
  by_cases h : q = k
  · subst h
    simp [memM, lookupM_insert_self]
  · simp [memM, lookupM_insert_ne m k q v h, h]

theorem lookupM_erase_ne {α : Type} (m : SMap α) (k q : String) (h : q ≠ k) :
    lookupM (eraseM m k) q = lookupM m q := by
  induction m with
  | nil => simp [eraseM]
  | cons hd tl ih =>
    obtain ⟨k', v'⟩ := hd
    by_cases hk : k' = k
    · subst hk
      simp [eraseM, lookupM, Ne.symm h]
    · simp only [eraseM, if_neg hk, lookupM]
      by_cases hq : k' = q
      · simp [hq]
      · simp [hq, ih]

theorem lookupM_append_some {α : Type} {m : SMap α} (m' : SMap α) {k : String} {v : α}
    (h : lookupM m k = some v) : lookupM (m ++ m') k = some v := by
  induction m with
  | nil => simp [lookupM] at h
  | cons hd tl ih =>
    obtain ⟨k', v'⟩ := hd
    by_cases hk : k' = k
    · simp_all [lookupM]
    · simp only [lookupM, if_neg hk] at h
      simpa [lookupM, if_neg hk] using ih h

theorem lookupM_append_none {α : Type} {m : SMap α} (m' : SMap α) {k : String}
    (h : lookupM m k = none) : lookupM (m ++ m') k = lookupM m' k := by
  induction m with
  | nil => simp
  | cons hd tl ih =>
    obtain ⟨k', v'⟩ := hd
    by_cases hk : k' = k
    · simp [lookupM, hk] at h
    · simp only [lookupM, if_neg hk] at h
      simpa [lookupM, if_neg hk] using ih h

theorem memM_insert_ne {α : Type} (m : SMap α) (k q : String) (v : α) (h : q ≠ k) :
    memM (insertM m k v) q = memM m q := by
  simp [memM, lookupM_insert_ne m k q v h]

theorem memM_erase_ne {α : Type} (m : SMap α) (k q : String) (h : q ≠ k) :
    memM (eraseM m k) q = memM m q := by
  simp [memM, lookupM_erase_ne m k q h]

theorem countOcc_pos_mem {pr : String × String} {l : List (String × String)}
    (h : 0 < countOcc pr l) : pr ∈ l := by
  induction l with
  | nil => simp [countOcc] at h
  | cons y ys ih =>
    by_cases hy : y = pr
    · simp [hy]
    · simp [countOcc, hy] at h
      exact List.mem_cons_of_mem _ (ih h)

/-! ### Attribution loop lemmas -/

theorem attribLoop_mem_mono (sizes : SMap Nat) (prevH2P : SMap (List String)) (u r : String)
    (l : List (String × List String)) (acc m : SMap HashEntry) (h : String)
    (hmem : memM acc h = true) (hok : attribLoop sizes prevH2P u r l acc = .ok m) :
    memM m h = true := by
  induction l generalizing acc with
  | nil =>
    simp [attribLoop] at hok
    exact hok ▸ hmem
  | cons hd rest ih =>
    obtain ⟨hashRef, currentPaths⟩ := hd
    cases hs : lookupM sizes (sampleOf currentPaths) with
    | none => simp [attribLoop, hs] at hok
    | some fileSize =>
      simp only [attribLoop, hs] at hok
      cases ha : lookupM acc hashRef with
      | none =>
        simp only [ha] at hok
        exact ih _ (by simp [memM_insert, hmem]) hok
      | some entry =>
        simp only [ha] at hok
        by_cases hgt : currentPaths.length > ((lookupM prevH2P hashRef).getD []).length
        · simp only [if_pos hgt] at hok
          by_cases hin : (u, r) ∈ entry.uploaders
          · simp only [if_pos hin] at hok
            exact ih _ hmem hok
          · simp only [if_neg hin] at hok
            exact ih _ (by simp [memM_insert, hmem]) hok
        · simp only [if_neg hgt] at hok
          exact ih _ hmem hok

theorem attribLoop_processed (sizes : SMap Nat) (prevH2P : SMap (List String)) (u r : String)
    (l : List (String × List String)) (acc m : SMap HashEntry) (h : String) (ps : List String)
    (hmem : (h, ps) ∈ l) (hok : attribLoop sizes prevH2P u r l acc = .ok m) :
    memM m h = true := by
  induction l generalizing acc with
  | nil => simp at hmem
  | cons hd rest ih =>
    obtain ⟨hashRef, currentPaths⟩ := hd
    cases hs : lookupM sizes (sampleOf currentPaths) with
    | none => simp [attribLoop, hs] at hok
    | some fileSize =>
      simp only [attribLoop, hs] at hok
      rcases List.mem_cons.mp hmem with heq | htl
      · have h1 : h = hashRef := congrArg Prod.fst heq
        subst h1
        cases ha : lookupM acc h with
        | none =>
          simp only [ha] at hok
          exact attribLoop_mem_mono sizes prevH2P u r rest _ m h
            (by simp [memM_insert]) hok
        | some entry =>
          simp only [ha] at hok
          by_cases hgt : currentPaths.length > ((lookupM prevH2P h).getD []).length
          · simp only [if_pos hgt] at hok
            by_cases hin : (u, r) ∈ entry.uploaders
            · simp only [if_pos hin] at hok
              exact attribLoop_mem_mono sizes prevH2P u r rest _ m h (by simp [memM, ha]) hok
            · simp only [if_neg hin] at hok
              exact attribLoop_mem_mono sizes prevH2P u r rest _ m h (by simp [memM_insert]) hok
          · simp only [if_neg hgt] at hok
            exact attribLoop_mem_mono sizes prevH2P u r rest _ m h (by simp [memM, ha]) hok
      · exact ih _ htl hok

theorem addToGroup_mem_mono (m : SMap (List String)) (h h' p : String)
    (hmem : memM m h = true) : memM (addToGroup m h' p) h = true := by
  unfold addToGroup
  cases ha : lookupM m h' with
  | none =>
    obtain ⟨v, hv⟩ := Option.isSome_iff_exists.mp (by simpa [memM] using hmem)
    simp [memM, lookupM_append_some _ hv]
  | some ps =>
    by_cases hh : h = h'
    · subst hh
      simp [memM, lookupM_insert_self]
    · simp only [memM, lookupM_insert_ne _ _ _ _ hh]
      simpa [memM] using hmem

theorem addToGroup_mem_self (m : SMap (List String)) (h p : String) :
    memM (addToGroup m h p) h = true := by
  unfold addToGroup
  cases ha : lookupM m h with
  | none => simp [memM, lookupM_append_none _ ha, lookupM]
  | some ps => simp [memM, lookupM_insert_self]

theorem groupFold_mono (l : SMap String) (acc : SMap (List String)) (h : String)
    (hmem : memM acc h = true) :
    memM (l.foldl (fun acc kv => addToGroup acc kv.2 kv.1) acc) h = true := by
  induction l generalizing acc with
  | nil => simpa using hmem
  | cons hd rest ih =>
    exact ih _ (addToGroup_mem_mono _ _ _ _ hmem)

theorem groupByHash_mem (pth : SMap String) (p h : String) (hmem : (p, h) ∈ pth) :
    memM (groupByHash pth) h = true := by
  unfold groupByHash
  generalize ([] : SMap (List String)) = acc
  induction pth generalizing acc with
  | nil => simp at hmem
  | cons hd rest ih =>
    rcases List.mem_cons.mp hmem with heq | htl
    · subst heq
      exact groupFold_mono rest _ h (addToGroup_mem_self acc h p)
    · exact ih htl _

theorem attribLoop_suffix (sizes : SMap Nat) (prevH2P : SMap (List String)) (u r : String)
    (l : List (String × List String)) (acc m : SMap HashEntry) (h : String) (e : HashEntry)
    (hl : lookupM acc h = some e) (hok : attribLoop sizes prevH2P u r l acc = .ok m) :
    ∃ e', lookupM m h = some e' ∧ ∃ suf, e'.uploaders = e.uploaders ++ suf := by
  induction l generalizing acc e with
  | nil =>
    simp [attribLoop] at hok
    exact ⟨e, hok ▸ hl, [], by simp⟩
  | cons hd rest ih =>
    obtain ⟨hashRef, currentPaths⟩ := hd
    cases hs : lookupM sizes (sampleOf currentPaths) with
    | none => simp [attribLoop, hs] at hok
    | some fileSize =>
      simp only [attribLoop, hs] at hok
      cases ha : lookupM acc hashRef with
      | none =>
        simp only [ha] at hok
        have hne : h ≠ hashRef := by
          intro hh
          rw [hh, ha] at hl
          exact Option.noConfusion hl
        exact ih _ e (by rw [lookupM_insert_ne _ _ _ _ hne]; exact hl) hok
      | some entry =>
        simp only [ha] at hok
        by_cases hgt : currentPaths.length > ((lookupM prevH2P hashRef).getD []).length
        · simp only [if_pos hgt] at hok
          by_cases hin : (u, r) ∈ entry.uploaders
          · simp only [if_pos hin] at hok
            exact ih _ e hl hok
          · simp only [if_neg hin] at hok
            by_cases hh : h = hashRef
            · subst hh
              rw [hl] at ha
              obtain rfl : e = entry := by injection ha
              obtain ⟨e', he', suf, hsuf⟩ :=
                ih _ ⟨e.size, e.uploaders ++ [(u, r)]⟩ (lookupM_insert_self _ _ _) hok
              exact ⟨e', he', [(u, r)] ++ suf, by simpa [List.append_assoc] using hsuf⟩
            · exact ih _ e (by rw [lookupM_insert_ne _ _ _ _ hh]; exact hl) hok
        · simp only [if_neg hgt] at hok
          exact ih _ e hl hok

theorem attribLoop_count_one (sizes : SMap Nat) (prevH2P : SMap (List String)) (u r : String)
    (l : List (String × List String)) (acc m : SMap HashEntry) (h : String) (e : HashEntry)
    (hl : lookupM acc h = some e) (hcount : countOcc (u, r) e.uploaders = 1)
    (hok : attribLoop sizes prevH2P u r l acc = .ok m) :
    ∃ e', lookupM m h = some e' ∧ countOcc (u, r) e'.uploaders = 1 := by
  induction l generalizing acc e with
  | nil =>
    simp [attribLoop] at hok
    exact ⟨e, hok ▸ hl, hcount⟩
  | cons hd rest ih =>
    obtain ⟨hashRef, currentPaths⟩ := hd
    cases hs : lookupM sizes (sampleOf currentPaths) with
    | none => simp [attribLoop, hs] at hok
    | some fileSize =>
      simp only [attribLoop, hs] at hok
      cases ha : lookupM acc hashRef with
      | none =>
        simp only [ha] at hok
        have hne : h ≠ hashRef := by
          intro hh
          rw [hh, ha] at hl
          exact Option.noConfusion hl
        exact ih _ e (by rw [lookupM_insert_ne _ _ _ _ hne]; exact hl) hcount hok
      | some entry =>
        simp only [ha] at hok
        by_cases hgt : currentPaths.length > ((lookupM prevH2P hashRef).getD []).length
        · simp only [if_pos hgt] at hok
          by_cases hin : (u, r) ∈ entry.uploaders
          · simp only [if_pos hin] at hok
            exact ih _ e hl hcount hok
          · simp only [if_neg hin] at hok
            by_cases hh : h = hashRef
            · subst hh
              rw [hl] at ha
              obtain rfl : e = entry := by injection ha
              exact absurd (countOcc_pos_mem (hcount ▸ Nat.one_pos)) hin
            · exact ih _ e (by rw [lookupM_insert_ne _ _ _ _ hh]; exact hl) hcount hok
        · simp only [if_neg hgt] at hok
          exact ih _ e hl hcount hok

/-! ### Scan, write and archive lemmas -/

theorem scanLoop_backslash (fileHash : String → String) (fileSize : String → Nat) :
    ∀ (entries : List String) (pth : SMap String) (psz : SMap Nat) (opened : List String),
      (∀ q ∈ opened, hasBackslash q = false) →
      (∃ p ∈ entries, hasBackslash p = true) →
      (scanLoop fileHash fileSize entries pth psz opened).outcome = .error () ∧
      ∀ q ∈ (scanLoop fileHash fileSize entries pth psz opened).opened,
        hasBackslash q = false := by
  intro entries
  induction entries with
  | nil =>
    intro pth psz opened hcl hex
    simp at hex
  | cons p rest ih =>
    intro pth psz opened hcl hex
    by_cases hb : hasBackslash p = true
    · simp only [scanLoop, if_pos hb]
      exact ⟨by simp, hcl⟩
    · simp only [scanLoop, if_neg hb]
      refine ih _ _ _ ?_ ?_
      · intro q hq
        rcases List.mem_append.mp hq with hq1 | hq2
        · exact hcl q hq1
        · obtain rfl : q = p := by simpa using hq2
          simpa using hb
      · obtain ⟨q, hq, hqb⟩ := hex
        rcases List.mem_cons.mp hq with rfl | hq2
        · exact absurd hqb hb
        · exact ⟨q, hq2, hqb⟩

theorem iterMembers_pos (skipDev : Bool) (maxMembers : Int) (hpos : 0 < maxMembers) :
    ∀ (members : List ArchiveMember) (k : Nat), (k : Int) ≤ maxMembers →
      iterMembers skipDev maxMembers members k =
        if ((countedMembers skipDev members).length + k : Int) ≤ maxMembers
        then (countedMembers skipDev members, false)
        else ((countedMembers skipDev members).take (maxMembers.toNat - k), true) := by
  intro members
  induction members with
  | nil =>
    intro k hk
    simp only [iterMembers, countedMembers, List.filter_nil, List.length_nil, Nat.cast_zero,
      zero_add]
    rw [if_pos hk]
  | cons mem rest ih =>
    intro k hk
    cases hd : (skipDev && mem.isdev) with
    | true =>
      have hcount : countedMembers skipDev (mem :: rest) = countedMembers skipDev rest := by
        simp only [countedMembers, List.filter_cons, hd]
        simp
      have hlhs : iterMembers skipDev maxMembers (mem :: rest) k =
          iterMembers skipDev maxMembers rest k := by
        simp [iterMembers, hd]
      rw [hcount, hlhs]
      exact ih k hk
    | false =>
      have hcount : countedMembers skipDev (mem :: rest) = mem :: countedMembers skipDev rest := by
        simp only [countedMembers, List.filter_cons, hd]
        simp
      rw [hcount]
      by_cases hover : ((k : Int) + 1 > maxMembers)
      · have hlhs : iterMembers skipDev maxMembers (mem :: rest) k = ([], true) := by
          simp [iterMembers, hd, hpos, hover]
        rw [hlhs, if_neg (by simp only [List.length_cons]; push_cast; omega)]
        have htake : maxMembers.toNat - k = 0 := by omega
        rw [htake, List.take_zero]
      · have hlhs : iterMembers skipDev maxMembers (mem :: rest) k =
            (mem :: (iterMembers skipDev maxMembers rest (k + 1)).1,
              (iterMembers skipDev maxMembers rest (k + 1)).2) := by
          simp [iterMembers, hd, hpos, hover]
        rw [hlhs, ih (k + 1) (by push_cast; omega)]
        by_cases hc2 : (((countedMembers skipDev rest).length : Int) + ((k + 1 : Nat) : Int) ≤
            maxMembers)
        · rw [if_pos hc2, if_pos (by simp only [List.length_cons]; push_cast at hc2 ⊢; omega)]
        · rw [if_neg hc2, if_neg (by simp only [List.length_cons]; push_cast at hc2 ⊢; omega)]
          have htake : maxMembers.toNat - k = (maxMembers.toNat - (k + 1)) + 1 := by
            push_cast at hover
            omega
          rw [htake, List.take_succ_cons]

theorem iterMembers_nolimit (skipDev : Bool) (maxMembers : Int) (hnp : maxMembers ≤ 0) :
    ∀ (members : List ArchiveMember) (k : Nat),
      iterMembers skipDev maxMembers members k = (countedMembers skipDev members, false) := by
  intro members
  induction members with
  | nil => intro k; simp [iterMembers, countedMembers]
  | cons mem rest ih =>
    intro k
    have hnotpos : ¬(maxMembers > 0) := by omega
    cases hd : (skipDev && mem.isdev) with
    | true =>
      have hcount : countedMembers skipDev (mem :: rest) = countedMembers skipDev rest := by
        simp only [countedMembers, List.filter_cons, hd]
        simp
      have hlhs : iterMembers skipDev maxMembers (mem :: rest) k =
          iterMembers skipDev maxMembers rest k := by
        simp [iterMembers, hd]
      rw [hcount, hlhs]
      exact ih k
    | false =>
      have hcount : countedMembers skipDev (mem :: rest) = mem :: countedMembers skipDev rest := by
        simp only [countedMembers, List.filter_cons, hd]
        simp
      have hlhs : iterMembers skipDev maxMembers (mem :: rest) k =
          (mem :: (iterMembers skipDev maxMembers rest k).1,
            (iterMembers skipDev maxMembers rest k).2) := by
        simp [iterMembers, hd, hnotpos]
      rw [hcount, hlhs, ih k]

/-! ### Merge lemmas -/

theorem loadPrior_of_some (ctx : MergeCtx) (st : MergeSt) (ph : SMap String)
    (h : st.priorHashes = some ph) : loadPrior ctx st = st := by
  simp [loadPrior, h]

theorem loadPrior_cache_consistent (ctx : MergeCtx) (st : MergeSt)
    (hst : st.priorHashes = none ∨ st.priorHashes = ctx.loadResult) :
    (loadPrior ctx st).priorHashes = ctx.loadResult := by
  rcases hst with h | h
  · simp [loadPrior, h]
  · cases hl : st.priorHashes with
    | none => simp [loadPrior, hl]
    | some ph =>
      rw [loadPrior_of_some ctx st ph hl]
      exact h

theorem loadPrior_cacheOf (ctx : MergeCtx) (st : MergeSt) :
    cacheOf (loadPrior ctx st) = cacheStep ctx (cacheOf st) := by
  cases hl : st.priorHashes <;> simp [loadPrior, cacheOf, cacheStep, hl]

theorem loadPrior_nHashes (ctx : MergeCtx) (st : MergeSt) :
    (loadPrior ctx st).nHashes = st.nHashes := by
  unfold loadPrior
  cases st.priorHashes <;> rfl

theorem cacheStep_idem (ctx : MergeCtx) (mres : SMap String) (hm : ctx.loadResult = some mres)
    (c : Option (SMap String) × Nat) : cacheStep ctx (cacheStep ctx c) = cacheStep ctx c := by
  obtain ⟨c1, c2⟩ := c
  cases c1 with
  | some ph => rfl
  | none => simp [cacheStep, hm]

theorem linkRefresh_cache (ctx : MergeCtx) (path : String) (f : FSFile) (st : MergeSt) :
    cacheOf (linkRefresh ctx path f st) = cacheStep ctx (cacheOf st) := by
  unfold linkRefresh
  have h : cacheOf (MergeSt.mk (loadPrior ctx st).temp (loadPrior ctx st).tempDirs
      (insertM (loadPrior ctx st).nHashes path (chosenHash (loadPrior ctx st) path f.hash))
      (insertM (loadPrior ctx st).nSizes path f.size)
      (loadPrior ctx st).priorHashes (loadPrior ctx st).loadCount) = cacheOf (loadPrior ctx st) :=
    rfl
  rw [h, loadPrior_cacheOf]

theorem addFromPrior_cache (ctx : MergeCtx) (path : String) (st st' : MergeSt)
    (h : addFromPrior ctx path st = .ok st') :
    cacheOf st' = cacheStep ctx (cacheOf st) := by
  unfold addFromPrior at h
  cases hf : lookupM ctx.priorFS path with
  | none =>
    simp only [hf] at h
    exact Except.noConfusion h
  | some f =>
    simp only [hf] at h
    by_cases hmem : memM st.temp path = true
    · rw [if_pos hmem] at h
      exact Except.noConfusion h
    · rw [if_neg hmem] at h
      injection h with h
      subst h
      rw [linkRefresh_cache]
      rfl

theorem replaceWithPrior_cache (ctx : MergeCtx) (path : String) (st st' : MergeSt)
    (h : replaceWithPrior ctx path st = .ok st') :
    cacheOf st' = cacheStep ctx (cacheOf st) := by
  unfold replaceWithPrior at h
  by_cases hmem : memM st.temp path = false
  · rw [if_pos hmem] at h
    exact Except.noConfusion h
  · rw [if_neg hmem] at h
    cases hf : lookupM ctx.priorFS path with
    | none =>
      simp only [hf] at h
      exact Except.noConfusion h
    | some f =>
      simp only [hf] at h
      injection h with h
      subst h
      rw [linkRefresh_cache]
      rfl

theorem mergeAllPresent_cache (ctx : MergeCtx) (path : String) (bIno pIno nIno : Nat)
    (st st' : MergeSt) (mres : SMap String) (hm : ctx.loadResult = some mres)
    (h : mergeAllPresent ctx path bIno pIno nIno st = .ok st') :
    cacheOf st' = cacheOf st ∨ cacheOf st' = cacheStep ctx (cacheOf st) := by
  unfold mergeAllPresent at h
  by_cases h1 : pIno = nIno
  · rw [if_pos h1] at h
    injection h with h
    subst h
    exact Or.inl rfl
  · rw [if_neg h1] at h
    by_cases h2 : bIno = pIno
    · rw [if_pos h2] at h
      injection h with h
      subst h
      exact Or.inl rfl
    · rw [if_neg h2] at h
      by_cases h3 : bIno = nIno
      · rw [if_pos h3] at h
        exact Or.inr (replaceWithPrior_cache ctx path st st' h)
      · rw [if_neg h3] at h
        cases hbh : lookupM ctx.baseHashes path with
        | none =>
          simp only [hbh] at h
          exact Except.noConfusion h
        | some bHash =>
          simp only [hbh] at h
          cases hnh : lookupM st.nHashes path with
          | none =>
            simp only [hnh] at h
            exact Except.noConfusion h
          | some nHash =>
            simp only [hnh] at h
            by_cases h4 : bHash = nHash
            · rw [if_pos h4] at h
              cases hinner : (match (loadPrior ctx st).priorHashes with
                  | some ph =>
                    match lookupM ph path with
                    | some hh => Except.ok hh
                    | none => priorFileHash ctx path
                  | none => priorFileHash ctx path) with
              | error e =>
                simp only [hinner] at h
                exact Except.noConfusion h
              | ok pHash =>
                simp only [hinner] at h
                by_cases h5 : pHash ≠ bHash
                · rw [if_pos h5] at h
                  have hc := replaceWithPrior_cache ctx path (loadPrior ctx st) st' h
                  rw [loadPrior_cacheOf, cacheStep_idem ctx mres hm] at hc
                  exact Or.inr hc
                · rw [if_neg h5] at h
                  injection h with h
                  subst h
                  exact Or.inr (loadPrior_cacheOf ctx st)
            · rw [if_neg h4] at h
              injection h with h
              subst h
              exact Or.inl rfl

theorem mergeStep_cache (ctx : MergeCtx) (path : String) (st st' : MergeSt)
    (mres : SMap String) (hm : ctx.loadResult = some mres)
    (h : mergeStep ctx path st = .ok st') :
    cacheOf st' = cacheOf st ∨ cacheOf st' = cacheStep ctx (cacheOf st) := by
  unfold mergeStep at h
  cases hb : lookupM ctx.baseInodes path with
  | none =>
    cases hp : lookupM (priorInodes ctx) path with
    | none =>
      simp only [hb, hp] at h
      injection h with h
      subst h
      exact Or.inl rfl
    | some pIno =>
      cases hn : lookupM ctx.nInodes path with
      | none =>
        simp only [hb, hp, hn] at h
        by_cases hc1 : hasTypeConflict path ctx.nInodes (nDirs ctx.nInodes) = true
        · rw [if_pos hc1] at h
          injection h with h
          subst h
          exact Or.inl rfl
        · rw [if_neg hc1] at h
          by_cases hc2 : st.tempDirs.any (fun q => decide (q = path)) = true
          · rw [if_pos hc2] at h
            injection h with h
            subst h
            exact Or.inl rfl
          · rw [if_neg hc2] at h
            exact Or.inr (addFromPrior_cache ctx path st st' h)
      | some nIno =>
        simp only [hb, hp, hn] at h
        injection h with h
        subst h
        exact Or.inl rfl
  | some bIno =>
    cases hp : lookupM (priorInodes ctx) path with
    | none =>
      cases hn : lookupM ctx.nInodes path with
      | none =>
        simp only [hb, hp, hn] at h
        injection h with h
        subst h
        exact Or.inl rfl
      | some nIno =>
        simp only [hb, hp, hn] at h
        cases hbh : lookupM ctx.baseHashes path with
        | none =>
          simp only [hbh] at h
          exact Except.noConfusion h
        | some bHash =>
          simp only [hbh] at h
          cases hnh : lookupM st.nHashes path with
          | none =>
            simp only [hnh] at h
            exact Except.noConfusion h
          | some nHash =>
            simp only [hnh] at h
            by_cases hcm : contentMatches bIno nIno bHash nHash = true
            · rw [if_pos hcm] at h
              by_cases hmem : memM st.temp path = false
              · rw [if_pos hmem] at h
                exact Except.noConfusion h
              · rw [if_neg hmem] at h
                injection h with h
                subst h
                exact Or.inl rfl
            · rw [if_neg hcm] at h
              injection h with h
              subst h
              exact Or.inl rfl
    | some pIno =>
      cases hn : lookupM ctx.nInodes path with
      | none =>
        simp only [hb, hp, hn] at h
        injection h with h
        subst h
        exact Or.inl rfl
      | some nIno =>
        simp only [hb, hp, hn] at h
        exact mergeAllPresent_cache ctx path bIno pIno nIno st st' mres hm h

theorem mergeLoop_cache_J (ctx : MergeCtx) (mres : SMap String)
    (hm : ctx.loadResult = some mres) :
    ∀ (l : List String) (st st' : MergeSt),
      (((cacheOf st).1 = none ∧ (cacheOf st).2 = 0) ∨
        ((cacheOf st).1 = some mres ∧ (cacheOf st).2 = 1)) →
      mergeLoop ctx l st = .ok st' →
      (((cacheOf st').1 = none ∧ (cacheOf st').2 = 0) ∨
        ((cacheOf st').1 = some mres ∧ (cacheOf st').2 = 1)) := by
  intro l
  induction l with
  | nil =>
    intro st st' hJ h
    unfold mergeLoop at h
    injection h with h
    subst h
    exact hJ
  | cons p rest ih =>
    intro st st' hJ h
    unfold mergeLoop at h
    cases hs : mergeStep ctx p st with
    | error e =>
      simp only [hs] at h
      exact Except.noConfusion h
    | ok st1 =>
      simp only [hs] at h
      refine ih st1 st' ?_ h
      rcases mergeStep_cache ctx p st st1 mres hm hs with hc | hc
      · rw [hc]
        exact hJ
      · rw [hc]
        rcases hJ with ⟨hn0, hl0⟩ | ⟨hsome, h1⟩
        · right
          have hcs : cacheStep ctx (cacheOf st) = (some mres, 1) := by
            simp [cacheStep, hn0, hm, hl0]
          rw [hcs]
          exact ⟨rfl, rfl⟩
        · right
          have hcs : cacheStep ctx (cacheOf st) = cacheOf st := by
            simp [cacheStep, hsome]
          rw [hcs]
          exact ⟨hsome, h1⟩

theorem lookupM_map_ino (l : SMap FSFile) (path : String) (pi : Nat)
    (h : lookupM (l.map (fun kv => (kv.1, kv.2.ino))) path = some pi) :
    ∃ f, lookupM l path = some f ∧ f.ino = pi := by
  induction l with
  | nil => simp [lookupM] at h
  | cons hd tl ih =>
    obtain ⟨k, f⟩ := hd
    by_cases hk : k = path
    · simp only [List.map_cons, lookupM, if_pos hk] at h
      injection h with h
      exact ⟨f, by simp [lookupM, hk], h⟩
    · simp only [List.map_cons, lookupM, if_neg hk] at h
      obtain ⟨f', hf', hino⟩ := ih h
      exact ⟨f', by simp [lookupM, hk, hf'], hino⟩

theorem mergeStep_cache_noload (ctx : MergeCtx) (path : String) (st st' : MergeSt)
    (hag : priorAgrees ctx) (h : mergeStep ctx path st = .ok st') :
    cacheOf st' = cacheOf st := by
  unfold mergeStep at h
  cases hb : lookupM ctx.baseInodes path with
  | none =>
    cases hp : lookupM (priorInodes ctx) path with
    | none =>
      simp only [hb, hp] at h
      injection h with h
      subst h
      rfl
    | some pIno =>
      cases hn : lookupM ctx.nInodes path with
      | none =>
        unfold priorInodes at hp
        obtain ⟨f, hf, hino⟩ := lookupM_map_ino ctx.priorFS path pIno hp
        rcases hag path f hf with hx | hx
        · rw [hn] at hx
          exact Option.noConfusion hx
        · rw [hb] at hx
          exact Option.noConfusion hx
      | some nIno =>
        simp only [hb, hp, hn] at h
        injection h with h
        subst h
        rfl
  | some bIno =>
    cases hp : lookupM (priorInodes ctx) path with
    | none =>
      cases hn : lookupM ctx.nInodes path with
      | none =>
        simp only [hb, hp, hn] at h
        injection h with h
        subst h
        rfl
      | some nIno =>
        simp only [hb, hp, hn] at h
        cases hbh : lookupM ctx.baseHashes path with
        | none =>
          simp only [hbh] at h
          exact Except.noConfusion h
        | some bHash =>
          simp only [hbh] at h
          cases hnh : lookupM st.nHashes path with
          | none =>
            simp only [hnh] at h
            exact Except.noConfusion h
          | some nHash =>
            simp only [hnh] at h
            by_cases hcm : contentMatches bIno nIno bHash nHash = true
            · rw [if_pos hcm] at h
              by_cases hmem : memM st.temp path = false
              · rw [if_pos hmem] at h
                exact Except.noConfusion h
              · rw [if_neg hmem] at h
                injection h with h
                subst h
                rfl
            · rw [if_neg hcm] at h
              injection h with h
              subst h
              rfl
    | some pIno =>
      cases hn : lookupM ctx.nInodes path with
      | none =>
        simp only [hb, hp, hn] at h
        injection h with h
        subst h
        rfl
      | some nIno =>
        simp only [hb, hp, hn] at h
        unfold priorInodes at hp
        obtain ⟨f, hf, hino⟩ := lookupM_map_ino ctx.priorFS path pIno hp
        unfold mergeAllPresent at h
        rcases hag path f hf with hx | hx
        · rw [hn] at hx
          injection hx with hx
          have hpn : pIno = nIno := by omega
          rw [if_pos hpn] at h
          injection h with h
          subst h
          rfl
        · rw [hb] at hx
          injection hx with hx
          have hbp : bIno = pIno := by omega
          by_cases hpn : pIno = nIno
          · rw [if_pos hpn] at h
            injection h with h
            subst h
            rfl
          · rw [if_neg hpn, if_pos hbp] at h
            injection h with h
            subst h
            rfl

theorem mergeLoop_cache_noload (ctx : MergeCtx) (hag : priorAgrees ctx) :
    ∀ (l : List String) (st st' : MergeSt),
      mergeLoop ctx l st = .ok st' → cacheOf st' = cacheOf st := by
  intro l
  induction l with
  | nil =>
    intro st st' h
    unfold mergeLoop at h
    injection h with h
    subst h
    rfl
  | cons p rest ih =>
    intro st st' h
    unfold mergeLoop at h
    cases hs : mergeStep ctx p st with
    | error e =>
      simp only [hs] at h
      exact Except.noConfusion h
    | ok st1 =>
      simp only [hs] at h
      rw [ih st1 st' h, mergeStep_cache_noload ctx p st st1 hag hs]

theorem priorFileHash_not_keyerror (ctx : MergeCtx) (path : String) :
    priorFileHash ctx path ≠ .error .keyError := by
  unfold priorFileHash
  cases lookupM ctx.priorFS path <;> simp

theorem addFromPrior_not_keyerror (ctx : MergeCtx) (path : String) (st : MergeSt) :
    addFromPrior ctx path st ≠ .error .keyError := by
  unfold addFromPrior
  cases hf : lookupM ctx.priorFS path with
  | none => simp
  | some f =>
    by_cases hmem : memM st.temp path = true
    · simp [hmem]
    · simp [hmem]

theorem replaceWithPrior_not_keyerror (ctx : MergeCtx) (path : String) (st : MergeSt) :
    replaceWithPrior ctx path st ≠ .error .keyError := by
  unfold replaceWithPrior
  by_cases hmem : memM st.temp path = false
  · simp [hmem]
  · cases hf : lookupM ctx.priorFS path with
    | none => simp [hmem]
    | some f => simp [hmem]

theorem mergeAllPresent_not_keyerror (ctx : MergeCtx) (path : String) (bIno pIno nIno : Nat)
    (st : MergeSt) (hbh : memM ctx.baseHashes path = true)
    (hnh : memM st.nHashes path = true) :
    mergeAllPresent ctx path bIno pIno nIno st ≠ .error .keyError := by
  intro h
  unfold mergeAllPresent at h
  by_cases h1 : pIno = nIno
  · rw [if_pos h1] at h
    exact Except.noConfusion h
  · rw [if_neg h1] at h
    by_cases h2 : bIno = pIno
    · rw [if_pos h2] at h
      exact Except.noConfusion h
    · rw [if_neg h2] at h
      by_cases h3 : bIno = nIno
      · rw [if_pos h3] at h
        exact replaceWithPrior_not_keyerror ctx path st h
      · rw [if_neg h3] at h
        obtain ⟨bHash, hbh'⟩ := Option.isSome_iff_exists.mp (by simpa [memM] using hbh)
        obtain ⟨nHash, hnh'⟩ := Option.isSome_iff_exists.mp (by simpa [memM] using hnh)
        simp only [hbh', hnh'] at h
        by_cases h4 : bHash = nHash
        · rw [if_pos h4] at h
          cases hph : (loadPrior ctx st).priorHashes with
          | some ph =>
            simp only [hph] at h
            cases hl : lookupM ph path with
            | some hh =>
              simp only [hl] at h
              by_cases h5 : hh ≠ bHash
              · rw [if_pos h5] at h
                exact replaceWithPrior_not_keyerror ctx path (loadPrior ctx st) h
              · rw [if_neg h5] at h
                exact Except.noConfusion h
            | none =>
              simp only [hl] at h
              cases hpf : priorFileHash ctx path with
              | error e =>
                simp only [hpf] at h
                have he : e = .keyError := by injection h
                exact priorFileHash_not_keyerror ctx path (he ▸ hpf)
              | ok pHash =>
                simp only [hpf] at h
                by_cases h5 : pHash ≠ bHash
                · rw [if_pos h5] at h
                  exact replaceWithPrior_not_keyerror ctx path (loadPrior ctx st) h
                · rw [if_neg h5] at h
                  exact Except.noConfusion h
          | none =>
            simp only [hph] at h
            cases hpf : priorFileHash ctx path with
            | error e =>
              simp only [hpf] at h
              have he : e = .keyError := by injection h
              exact priorFileHash_not_keyerror ctx path (he ▸ hpf)
            | ok pHash =>
              simp only [hpf] at h
              by_cases h5 : pHash ≠ bHash
              · rw [if_pos h5] at h
                exact replaceWithPrior_not_keyerror ctx path (loadPrior ctx st) h
              · rw [if_neg h5] at h
                exact Except.noConfusion h
        · rw [if_neg h4] at h
          exact Except.noConfusion h

theorem mergeStep_not_keyerror (ctx : MergeCtx) (path : String) (st : MergeSt)
    (hcov : memM ctx.baseInodes path = true → memM ctx.nInodes path = true →
      memM ctx.baseHashes path = true ∧ memM st.nHashes path = true) :
    mergeStep ctx path st ≠ .error .keyError := by
  intro h
  unfold mergeStep at h
  cases hb : lookupM ctx.baseInodes path with
  | none =>
    cases hp : lookupM (priorInodes ctx) path with
    | none =>
      simp only [hb, hp] at h
      exact Except.noConfusion h
    | some pIno =>
      cases hn : lookupM ctx.nInodes path with
      | none =>
        simp only [hb, hp, hn] at h
        by_cases hc1 : hasTypeConflict path ctx.nInodes (nDirs ctx.nInodes) = true
        · rw [if_pos hc1] at h
          exact Except.noConfusion h
        · rw [if_neg hc1] at h
          by_cases hc2 : st.tempDirs.any (fun q => decide (q = path)) = true
          · rw [if_pos hc2] at h
            exact Except.noConfusion h
          · rw [if_neg hc2] at h
            exact addFromPrior_not_keyerror ctx path st h
      | some nIno =>
        simp only [hb, hp, hn] at h
        exact Except.noConfusion h
  | some bIno =>
    cases hn : lookupM ctx.nInodes path with
    | none =>
      cases hp : lookupM (priorInodes ctx) path with
      | none =>
        simp only [hb, hp, hn] at h
        exact Except.noConfusion h
      | some pIno =>
        simp only [hb, hp, hn] at h
        exact Except.noConfusion h
    | some nIno =>
      obtain ⟨hbh, hnh⟩ := hcov (by simp [memM, hb]) (by simp [memM, hn])
      cases hp : lookupM (priorInodes ctx) path with
      | none =>
        simp only [hb, hp, hn] at h
        obtain ⟨bHash, hbh'⟩ := Option.isSome_iff_exists.mp (by simpa [memM] using hbh)
        obtain ⟨nHash, hnh'⟩ := Option.isSome_iff_exists.mp (by simpa [memM] using hnh)
        simp only [hbh', hnh'] at h
        by_cases hcm : contentMatches bIno nIno bHash nHash = true
        · rw [if_pos hcm] at h
          by_cases hmem : memM st.temp path = false
          · rw [if_pos hmem] at h
            injection h with h
            exact MergeErr.noConfusion h
          · rw [if_neg hmem] at h
            exact Except.noConfusion h
        · rw [if_neg hcm] at h
          exact Except.noConfusion h
      | some pIno =>
        simp only [hb, hp, hn] at h
        exact mergeAllPresent_not_keyerror ctx path bIno pIno nIno st hbh hnh h

theorem addFromPrior_nhashes_other (ctx : MergeCtx) (path : String) (st st' : MergeSt)
    (h : addFromPrior ctx path st = .ok st') (q : String) (hq : q ≠ path) :
    memM st'.nHashes q = memM st.nHashes q := by
  unfold addFromPrior at h
  cases hf : lookupM ctx.priorFS path with
  | none =>
    simp only [hf] at h
    exact Except.noConfusion h
  | some f =>
    simp only [hf] at h
    by_cases hmem : memM st.temp path = true
    · rw [if_pos hmem] at h
      exact Except.noConfusion h
    · rw [if_neg hmem] at h
      injection h with h
      subst h
      unfold linkRefresh
      rw [show (MergeSt.mk _ _ (insertM (loadPrior ctx _).nHashes path _)
        (insertM (loadPrior ctx _).nSizes path f.size) _ _).nHashes =
        insertM (loadPrior ctx { st with
          tempDirs := st.tempDirs ++ properPrefixes path,
          temp := insertM st.temp path f }).nHashes path
          (chosenHash (loadPrior ctx { st with
            tempDirs := st.tempDirs ++ properPrefixes path,
            temp := insertM st.temp path f }) path f.hash) from rfl]
      rw [memM_insert_ne _ _ _ _ hq, loadPrior_nHashes]

theorem replaceWithPrior_nhashes_other (ctx : MergeCtx) (path : String) (st st' : MergeSt)
    (h : replaceWithPrior ctx path st = .ok st') (q : String) (hq : q ≠ path) :
    memM st'.nHashes q = memM st.nHashes q := by
  unfold replaceWithPrior at h
  by_cases hmem : memM st.temp path = false
  · rw [if_pos hmem] at h
    exact Except.noConfusion h
  · rw [if_neg hmem] at h
    cases hf : lookupM ctx.priorFS path with
    | none =>
      simp only [hf] at h
      exact Except.noConfusion h
    | some f =>
      simp only [hf] at h
      injection h with h
      subst h
      unfold linkRefresh
      rw [show (MergeSt.mk _ _ (insertM (loadPrior ctx _).nHashes path _)
        (insertM (loadPrior ctx _).nSizes path f.size) _ _).nHashes =
        insertM (loadPrior ctx { st with
          temp := insertM (eraseM st.temp path) path f }).nHashes path
          (chosenHash (loadPrior ctx { st with
            temp := insertM (eraseM st.temp path) path f }) path f.hash) from rfl]
      rw [memM_insert_ne _ _ _ _ hq, loadPrior_nHashes]

theorem mergeAllPresent_nhashes_other (ctx : MergeCtx) (path : String) (bIno pIno nIno : Nat)
    (st st' : MergeSt) (h : mergeAllPresent ctx path bIno pIno nIno st = .ok st')
    (q : String) (hq : q ≠ path) :
    memM st'.nHashes q = memM st.nHashes q := by
  unfold mergeAllPresent at h
  by_cases h1 : pIno = nIno
  · rw [if_pos h1] at h
    injection h with h
    subst h
    rfl
  · rw [if_neg h1] at h
    by_cases h2 : bIno = pIno
    · rw [if_pos h2] at h
      injection h with h
      subst h
      rfl
    · rw [if_neg h2] at h
      by_cases h3 : bIno = nIno
      · rw [if_pos h3] at h
        exact replaceWithPrior_nhashes_other ctx path st st' h q hq
      · rw [if_neg h3] at h
        cases hbh : lookupM ctx.baseHashes path with
        | none =>
          simp only [hbh] at h
          exact Except.noConfusion h
        | some bHash =>
          simp only [hbh] at h
          cases hnh : lookupM st.nHashes path with
          | none =>
            simp only [hnh] at h
            exact Except.noConfusion h
          | some nHash =>
            simp only [hnh] at h
            by_cases h4 : bHash = nHash
            · rw [if_pos h4] at h
              cases hinner : (match (loadPrior ctx st).priorHashes with
                  | some ph =>
                    match lookupM ph path with
                    | some hh => Except.ok hh
                    | none => priorFileHash ctx path
                  | none => priorFileHash ctx path) with
              | error e =>
                simp only [hinner] at h
                exact Except.noConfusion h
              | ok pHash =>
                simp only [hinner] at h
                by_cases h5 : pHash ≠ bHash
                · rw [if_pos h5] at h
                  rw [replaceWithPrior_nhashes_other ctx path (loadPrior ctx st) st' h q hq,
                    loadPrior_nHashes]
                · rw [if_neg h5] at h
                  injection h with h
                  subst h
                  rw [loadPrior_nHashes]
            · rw [if_neg h4] at h
              injection h with h
              subst h
              rfl

theorem mergeStep_nhashes_other (ctx : MergeCtx) (path : String) (st st' : MergeSt)
    (h : mergeStep ctx path st = .ok st') (q : String) (hq : q ≠ path) :
    memM st'.nHashes q = memM st.nHashes q := by
  unfold mergeStep at h
  cases hb : lookupM ctx.baseInodes path with
  | none =>
    cases hp : lookupM (priorInodes ctx) path with
    | none =>
      simp only [hb, hp] at h
      injection h with h
      subst h
      rfl
    | some pIno =>
      cases hn : lookupM ctx.nInodes path with
      | none =>
        simp only [hb, hp, hn] at h
        by_cases hc1 : hasTypeConflict path ctx.nInodes (nDirs ctx.nInodes) = true
        · rw [if_pos hc1] at h
          injection h with h
          subst h
          rfl
        · rw [if_neg hc1] at h
          by_cases hc2 : st.tempDirs.any (fun q => decide (q = path)) = true
          · rw [if_pos hc2] at h
            injection h with h
            subst h
            rfl
          · rw [if_neg hc2] at h
            exact addFromPrior_nhashes_other ctx path st st' h q hq
      | some nIno =>
        simp only [hb, hp, hn] at h
        injection h with h
        subst h
        rfl
  | some bIno =>
    cases hp : lookupM (priorInodes ctx) path with
    | none =>
      cases hn : lookupM ctx.nInodes path with
      | none =>
        simp only [hb, hp, hn] at h
        injection h with h
        subst h
        rfl
      | some nIno =>
        simp only [hb, hp, hn] at h
        cases hbh : lookupM ctx.baseHashes path with
        | none =>
          simp only [hbh] at h
          exact Except.noConfusion h
        | some bHash =>
          simp only [hbh] at h
          cases hnh : lookupM st.nHashes path with
          | none =>
            simp only [hnh] at h
            exact Except.noConfusion h
          | some nHash =>
            simp only [hnh] at h
            by_cases hcm : contentMatches bIno nIno bHash nHash = true
            · rw [if_pos hcm] at h
              by_cases hmem : memM st.temp path = false
              · rw [if_pos hmem] at h
                exact Except.noConfusion h
              · rw [if_neg hmem] at h
                injection h with h
                subst h
                exact memM_erase_ne _ _ _ hq
            · rw [if_neg hcm] at h
              injection h with h
              subst h
              rfl
    | some pIno =>
      cases hn : lookupM ctx.nInodes path with
      | none =>
        simp only [hb, hp, hn] at h
        injection h with h
        subst h
        rfl
      | some nIno =>
        simp only [hb, hp, hn] at h
        exact mergeAllPresent_nhashes_other ctx path bIno pIno nIno st st' h q hq

theorem addUnique_nodup (acc : List String) (x : String) (h : acc.Nodup) :
    (addUnique acc x).Nodup := by
  unfold addUnique
  by_cases hx : x ∈ acc
  · simpa [hx] using h
  · rw [if_neg hx, List.nodup_append]
    exact ⟨h, List.nodup_singleton x, by simpa using hx⟩

theorem unionKeys_nodup (ls : List String) : (unionKeys ls).Nodup := by
  unfold unionKeys
  have hgen : ∀ (l : List String) (acc : List String), acc.Nodup →
      (l.foldl addUnique acc).Nodup := by
    intro l
    induction l with
    | nil => intro acc h; simpa using h
    | cons y ys ih => intro acc h; exact ih _ (addUnique_nodup acc y h)
  exact hgen ls [] (List.nodup_nil)

theorem insertSorted_perm (x : String) (l : List String) :
    List.Perm (insertSorted x l) (x :: l) := by
  induction l with
  | nil => simp [insertSorted]
  | cons y ys ih =>
    unfold insertSorted
    by_cases hle : strLeB x y = true
    · simp [hle]
    · rw [if_neg hle]
      exact (List.Perm.cons y ih).trans (List.Perm.swap x y ys)

theorem sortStrings_perm (l : List String) : List.Perm (sortStrings l) l := by
  induction l with
  | nil => simp [sortStrings]
  | cons y ys ih =>
    have : sortStrings (y :: ys) = insertSorted y (sortStrings ys) := rfl
    rw [this]
    exact (insertSorted_perm y (sortStrings ys)).trans (List.Perm.cons y ih)

theorem allPaths_nodup (ctx : MergeCtx) : (allPaths ctx).Nodup :=
  ((sortStrings_perm _).nodup_iff).mpr (unionKeys_nodup _)

theorem mergeLoop_no_keyerror (ctx : MergeCtx) :
    ∀ (l : List String), l.Nodup → ∀ (st : MergeSt),
      (∀ q ∈ l, memM ctx.baseInodes q = true → memM ctx.nInodes q = true →
        memM ctx.baseHashes q = true ∧ memM st.nHashes q = true) →
      mergeLoop ctx l st ≠ .error .keyError := by
  intro l
  induction l with
  | nil =>
    intro _ st _ h
    unfold mergeLoop at h
    exact Except.noConfusion h
  | cons p rest ih =>
    intro hnd st hinv h
    unfold mergeLoop at h
    cases hs : mergeStep ctx p st with
    | error e =>
      simp only [hs] at h
      have he : e = .keyError := by injection h
      exact mergeStep_not_keyerror ctx p st (hinv p (List.mem_cons_self p rest)) (he ▸ hs)
    | ok st1 =>
      simp only [hs] at h
      refine ih (List.Nodup.of_cons hnd) st1 ?_ h
      intro q hq hbq hnq
      have hq_ne : q ≠ p := by
        intro hqq
        exact (List.nodup_cons.mp hnd).1 (hqq ▸ hq)
      obtain ⟨hbh, hnh⟩ := hinv q (List.mem_cons_of_mem p hq) hbq hnq
      refine ⟨hbh, ?_⟩
      rw [mergeStep_nhashes_other ctx p st st1 hs q hq_ne]
      exact hnh

/-! ### Claim theorems: C1, C5, C9 -/

/-- C1 counterexample: at a concrete `write_files_data` call with no
pre-existing checks index, the checks-index artifact is created by a direct
plain write — not by write-to-temp-then-rename — so not all three persisted
artifacts are written via temp-then-rename semantics. -/
theorem write_files_data_checks_plain_cex :
    eventsOf (writeFilesData "st" "p" "v" "00001" none "alice" none
        [("a", "blake3:aa")] [("a", 3)] false) =
      [.tempThenRename "st/p/v/00001.json"
          (.fullManifest ⟨[("a", "blake3:aa")], [("blake3:aa", ⟨3, [("alice", "00001")]⟩)], []⟩),
        .tempThenRename "st/p/v/00001.paths.json" (.pathsOnly [("a", "blake3:aa")]),
        .plainWrite "st/p/v/00001.checks.json" .emptyChecks] := by
  rfl

/-- C1 (amended): in every successful `write_files_data` run the full manifest
and the paths-only projection are written via write-to-temp-then-rename, and
every direct (non-atomic) write targets only the checks index, writes only the
empty checks payload, and happens only when the checks file did not already
exist. -/
theorem write_files_data_atomicity
    (root project version rev : String) (pol : Option (SMap String)) (up : String)
    (prevM : Option AttestableV1) (pth : SMap String) (psz : SMap Nat)
    (checksExists : Bool) (evs : List WriteEvent)
    (hok : writeFilesData root project version rev pol up prevM pth psz checksExists = .ok evs) :
    (∃ mres, WriteEvent.tempThenRename (attestablePath root project version rev)
        (.fullManifest mres) ∈ evs ∧
      WriteEvent.tempThenRename (attestablePathsPath root project version rev)
        (.pathsOnly mres.paths) ∈ evs) ∧
    (∀ t pl, WriteEvent.plainWrite t pl ∈ evs →
      t = attestableChecksPath root project version rev ∧ pl = .emptyChecks ∧
        checksExists = false) := by
  unfold writeFilesData at hok
  cases hg : generateFilesData pth psz rev pol up prevM with
  | error e =>
    rw [hg] at hok
    exact Except.noConfusion hok
  | ok result =>
    rw [hg] at hok
    obtain rfl : _ = evs := by injection hok
    constructor
    · refine ⟨result, ?_, ?_⟩
      · simp [atomicWriteFile]
      · simp [atomicWriteFile]
    · intro t pl hmem
      cases checksExists with
      | true =>
        simp [atomicWriteFile] at hmem
      | false =>
        simp [atomicWriteFile] at hmem
        exact ⟨hmem.1, hmem.2, rfl⟩

/-- C1 witness: a concrete successful run (checks file already present): both
atomic writes are among the events and every plain write is constrained as the
amended claim states. -/
theorem write_files_data_atomicity_witness :
    (∃ mres, WriteEvent.tempThenRename (attestablePath "st" "p" "v" "00001")
        (.fullManifest mres) ∈
          eventsOf (writeFilesData "st" "p" "v" "00001" none "alice" none
            [("a", "blake3:aa")] [("a", 3)] true) ∧
      WriteEvent.tempThenRename (attestablePathsPath "st" "p" "v" "00001")
        (.pathsOnly mres.paths) ∈
          eventsOf (writeFilesData "st" "p" "v" "00001" none "alice" none
            [("a", "blake3:aa")] [("a", 3)] true)) ∧
    (∀ t pl, WriteEvent.plainWrite t pl ∈
        eventsOf (writeFilesData "st" "p" "v" "00001" none "alice" none
          [("a", "blake3:aa")] [("a", 3)] true) →
      t = attestableChecksPath "st" "p" "v" "00001" ∧ pl = .emptyChecks ∧ true = false) :=
  write_files_data_atomicity "st" "p" "v" "00001" none "alice" none
    [("a", "blake3:aa")] [("a", 3)] true
    [.tempThenRename "st/p/v/00001.json"
        (.fullManifest ⟨[("a", "blake3:aa")], [("blake3:aa", ⟨3, [("alice", "00001")]⟩)], []⟩),
      .tempThenRename "st/p/v/00001.paths.json" (.pathsOnly [("a", "blake3:aa")])]
    (by rfl)

/-- C5 counterexample: with the walk yielding `a.txt` before the offending
`b\c`, the backslash error is raised only mid-scan — `a.txt` has already been
opened and hashed — refuting "before any file is opened and before any
scanning begins". -/
theorem scan_backslash_cex :
    (pathsToHashesAndSizes (fun _ => "blake3:xx") (fun _ => 1) ["a.txt", "b\\c"]).outcome =
        .error () ∧
      (pathsToHashesAndSizes (fun _ => "blake3:xx") (fun _ => 1) ["a.txt", "b\\c"]).opened =
        ["a.txt"] :=
  ⟨rfl, rfl⟩

/-- C5 (amended): when any yielded relative path contains a backslash, the
hashing/path-walk step fails with the forbidden-character error, the hash/size
maps are never returned, and the offending path's file is never opened (the
check runs per path, before that path's file is opened — though files of
earlier-yielded paths have already been opened). -/
theorem scan_rejects_backslash (fileHash : String → String) (fileSize : String → Nat)
    (entries : List String) (hex : ∃ p ∈ entries, hasBackslash p = true) :
    (pathsToHashesAndSizes fileHash fileSize entries).outcome = .error () ∧
    ∀ q ∈ (pathsToHashesAndSizes fileHash fileSize entries).opened,
      hasBackslash q = false :=
  scanLoop_backslash fileHash fileSize entries [] [] [] (by simp) hex

/-- C5 witness: concrete two-path walk where the second path holds a
backslash. -/
theorem scan_rejects_backslash_witness :
    (pathsToHashesAndSizes (fun _ => "blake3:yy") (fun _ => 2) ["a.txt", "b\\c"]).outcome =
        .error () ∧
    ∀ q ∈ (pathsToHashesAndSizes (fun _ => "blake3:yy") (fun _ => 2)
        ["a.txt", "b\\c"]).opened, hasBackslash q = false :=
  scan_rejects_backslash (fun _ => "blake3:yy") (fun _ => 2) ["a.txt", "b\\c"]
    ⟨"b\\c", by simp, by decide⟩

/-- C9: with a positive cap, iteration yields exactly the counted (non-device)
members while they number at most the cap, and raises the too-many-members
error exactly when a `(cap+1)`-th counted member would be yielded — the first
`cap` members having been yielded already; a zero or negative cap disables the
limit entirely. -/
theorem archive_iter_cap (skipDev : Bool) (maxMembers : Int) (members : List ArchiveMember) :
    (0 < maxMembers →
      archiveIter skipDev maxMembers members =
        if ((countedMembers skipDev members).length : Int) ≤ maxMembers
        then (countedMembers skipDev members, false)
        else ((countedMembers skipDev members).take maxMembers.toNat, true)) ∧
    (maxMembers ≤ 0 →
      archiveIter skipDev maxMembers members = (countedMembers skipDev members, false)) := by
  constructor
  · intro hpos
    have h := iterMembers_pos skipDev maxMembers hpos members 0 (by simpa using le_of_lt hpos)
    simpa [archiveIter] using h
  · intro hnp
    exact iterMembers_nolimit skipDev maxMembers hnp members 0

/-- C9 witness: a cap of 2 over a 3-member archive yields the first two members
and raises on the third step; and a cap of 0 yields everything. -/
theorem archive_iter_cap_witness :
    archiveIter true 2 [⟨"a", false⟩, ⟨"b", false⟩, ⟨"c", false⟩] =
        ([⟨"a", false⟩, ⟨"b", false⟩], true) ∧
      archiveIter true 0 [⟨"a", false⟩, ⟨"b", false⟩, ⟨"c", false⟩] =
        ([⟨"a", false⟩, ⟨"b", false⟩, ⟨"c", false⟩], false) := by
  constructor
  · rw [(archive_iter_cap true 2 [⟨"a", false⟩, ⟨"b", false⟩, ⟨"c", false⟩]).1 (by decide)]
    rfl
  · rw [(archive_iter_cap true 0 [⟨"a", false⟩, ⟨"b", false⟩, ⟨"c", false⟩]).2 (by decide)]
    rfl

/-! ### Claim theorems: attribution (C6, C7, C8) -/

/-- C6: for any path-to-hash map, a size map covering its paths, and an
optional previous manifest whose paths are covered by its hashes, every hash
reference appearing as a value in the generated manifest's `paths` mapping
appears as a key in its `hashes` mapping. -/
theorem generated_paths_hashes_covered
    (pathToHash : SMap String) (pathToSize : SMap Nat) (rev : String)
    (pol : Option (SMap String)) (up : String) (previous : Option AttestableV1)
    (m : AttestableV1)
    (hsz : ∀ p, memM pathToHash p = true → memM pathToSize p = true)
    (hprev : ∀ pm p h, previous = some pm → lookupM pm.paths p = some h →
      memM pm.hashes h = true)
    (hok : generateFilesData pathToHash pathToSize rev pol up previous = .ok m) :
    ∀ p h, lookupM m.paths p = some h → memM m.hashes h = true := by
  intro p h hp
  unfold generateFilesData at hok
  cases hc : computeHashesWithAttribution (groupByHash pathToHash) pathToSize previous up rev with
  | error e =>
    rw [hc] at hok
    exact Except.noConfusion hok
  | ok nh =>
    rw [hc] at hok
    obtain rfl : (⟨pathToHash, nh, pol.getD []⟩ : AttestableV1) = m := by injection hok
    have hpm : (p, h) ∈ pathToHash := lookupM_mem hp
    have hg : memM (groupByHash pathToHash) h = true := groupByHash_mem _ _ _ hpm
    obtain ⟨ps, hps⟩ := Option.isSome_iff_exists.mp (by simpa [memM] using hg)
    unfold computeHashesWithAttribution at hc
    exact attribLoop_processed _ _ _ _ _ _ _ h ps (lookupM_mem hps) hc

/-- C6 witness: a concrete one-file manifest generation satisfying all
hypotheses, with the single hash reference covered. -/
theorem generated_paths_hashes_covered_witness :
    memM (AttestableV1.mk [("a.txt", "blake3:aa")]
      [("blake3:aa", ⟨3, [("alice", "00001")]⟩)] []).hashes "blake3:aa" = true :=
  generated_paths_hashes_covered [("a.txt", "blake3:aa")] [("a.txt", 3)] "00001" none "alice"
    none ⟨[("a.txt", "blake3:aa")], [("blake3:aa", ⟨3, [("alice", "00001")]⟩)], []⟩
    (by intro p hp
        simp [memM, lookupM] at hp ⊢
        exact hp)
    (by intro pm p h hpm
        exact Option.noConfusion hpm)
    (by rfl) "a.txt" "blake3:aa" (by rfl)

/-- C7: for every previous manifest and attribution computation run on top of
it, the uploaders list of every hash carried over from the previous manifest is
the previous list with zero or more pairs appended at the end. -/
theorem attribution_append_only
    (current : SMap (List String)) (sizes : SMap Nat) (prev : AttestableV1) (u r : String)
    (m : SMap HashEntry)
    (hok : computeHashesWithAttribution current sizes (some prev) u r = .ok m) :
    ∀ h e, lookupM prev.hashes h = some e →
      ∃ e', lookupM m h = some e' ∧ ∃ suf, e'.uploaders = e.uploaders ++ suf := by
  intro h e hl
  unfold computeHashesWithAttribution at hok
  exact attribLoop_suffix _ _ _ _ _ _ _ _ _ hl hok

/-- C7 witness: a second path adopting an existing hash appends the new
uploader pair after the previous revision's pair. -/
theorem attribution_append_only_witness :
    ∃ e', lookupM [("blake3:h1", (⟨3, [("bob", "00000"), ("alice", "00001")]⟩ : HashEntry))]
        "blake3:h1" = some e' ∧
      ∃ suf, e'.uploaders = [("bob", "00000")] ++ suf :=
  attribution_append_only [("blake3:h1", ["a", "b"])] [("a", 3), ("b", 3)]
    ⟨[("a", "blake3:h1")], [("blake3:h1", ⟨3, [("bob", "00000")]⟩)], []⟩ "alice" "00001"
    [("blake3:h1", ⟨3, [("bob", "00000"), ("alice", "00001")]⟩)] (by rfl)
    "blake3:h1" ⟨3, [("bob", "00000")]⟩ (by rfl)

/-- C8: when the `(uploader, revision)` pair is already present (exactly once)
in a hash entry's uploaders list of the previous manifest, attribution leaves
exactly one occurrence of that pair in the resulting entry — so re-running the
computation over its own output never duplicates the pair. -/
theorem attribution_no_duplicate_pair
    (current : SMap (List String)) (sizes : SMap Nat) (prev : AttestableV1) (u r : String)
    (m : SMap HashEntry) (h : String) (e : HashEntry)
    (hl : lookupM prev.hashes h = some e)
    (hone : countOcc (u, r) e.uploaders = 1)
    (hok : computeHashesWithAttribution current sizes (some prev) u r = .ok m) :
    ∃ e', lookupM m h = some e' ∧ countOcc (u, r) e'.uploaders = 1 := by
  unfold computeHashesWithAttribution at hok
  exact attribLoop_count_one _ _ _ _ _ _ _ _ _ hl hone hok

/-- C8 witness: re-running attribution with the same pair over a manifest that
already records it (once, for a hash whose path count grew) keeps a single
occurrence. -/
theorem attribution_no_duplicate_pair_witness :
    ∃ e', lookupM [("blake3:h1", (⟨3, [("bob", "00000"), ("alice", "00001")]⟩ : HashEntry))]
        "blake3:h1" = some e' ∧ countOcc ("alice", "00001") e'.uploaders = 1 :=
  attribution_no_duplicate_pair [("blake3:h1", ["a", "b"])] [("a", 3), ("b", 3)]
    ⟨[("a", "blake3:h1"), ("b", "blake3:h1")],
      [("blake3:h1", ⟨3, [("bob", "00000"), ("alice", "00001")]⟩)], []⟩ "alice" "00001"
    [("blake3:h1", ⟨3, [("bob", "00000"), ("alice", "00001")]⟩)] "blake3:h1"
    ⟨3, [("bob", "00000"), ("alice", "00001")]⟩ (by rfl) (by decide) (by rfl)

/-! ### Claim theorems: merge (C2, C3) -/

/-- C2: for an all-three-present path, `_merge_all_present` takes exactly the
claim's priority cascade — prior/new inodes equal: nothing; base/prior inodes
equal: nothing; base/new inodes equal: replace from prior; equal base/new
hashes with a differing prior hash (projection-preferred, else computed):
replace from prior; otherwise nothing (new wins) — the only other state change
being the lazy projection-cache load in the hash-comparison case. -/
theorem merge_all_present_cascade (ctx : MergeCtx) (path : String) (bIno pIno nIno : Nat)
    (st : MergeSt) (hst : st.priorHashes = none ∨ st.priorHashes = ctx.loadResult) :
    mergeAllPresent ctx path bIno pIno nIno st =
      match specReplaceDecision ctx path bIno pIno nIno (lookupM st.nHashes path) with
      | .error e => .error e
      | .ok true =>
        replaceWithPrior ctx path
          (if consultsPrior ctx path bIno pIno nIno (lookupM st.nHashes path)
           then loadPrior ctx st else st)
      | .ok false =>
        .ok (if consultsPrior ctx path bIno pIno nIno (lookupM st.nHashes path)
             then loadPrior ctx st else st) := by
  unfold mergeAllPresent specReplaceDecision consultsPrior
  by_cases h1 : pIno = nIno
  · simp [h1]
  · by_cases h2 : bIno = pIno
    · simp [h1, h2]
    · by_cases h3 : bIno = nIno
      · simp [h1, h2, h3, Ne.symm h1]
      · simp only [if_neg h1, if_neg h2, if_neg h3]
        cases hbh : lookupM ctx.baseHashes path with
        | none => simp [h1, h2, h3]
        | some bHash =>
          cases hnh : lookupM st.nHashes path with
          | none => simp [h1, h2, h3]
          | some nHash =>
            by_cases h4 : bHash = nHash
            · have hph : (loadPrior ctx st).priorHashes = ctx.loadResult :=
                loadPrior_cache_consistent ctx st hst
              simp only [if_pos h4, hph]
              have hfold :
                  (match ctx.loadResult with
                   | some ph =>
                     match lookupM ph path with
                     | some hh => Except.ok hh
                     | none => priorFileHash ctx path
                   | none => priorFileHash ctx path) = specPriorHash ctx path := rfl
              rw [hfold]
              cases hsp : specPriorHash ctx path with
              | error e => simp [h1, h2, h3, h4]
              | ok pHash =>
                by_cases h5 : pHash = bHash
                · simp [h1, h2, h3, h4, h5]
                · have h5' : ¬pHash = nHash := by
                    rw [← h4]
                    exact h5
                  simp [h1, h2, h3, h4, h5, h5']
            · simp [h1, h2, h3, h4]

/-- C2 witness: a concrete all-present path with pairwise distinct inodes,
equal base/new hashes, no projection file, and a differing prior content hash:
the cascade chooses replace-from-prior. -/
theorem merge_all_present_cascade_witness :
    mergeAllPresent ⟨[("f", 1)], [("f", "h0")], [("f", ⟨2, "hp", 5⟩)], [("f", 3)], none⟩ "f"
        1 2 3 ⟨[("f", ⟨3, "h0", 5⟩)], [], [("f", "h0")], [("f", 5)], none, 0⟩ =
      match specReplaceDecision ⟨[("f", 1)], [("f", "h0")], [("f", ⟨2, "hp", 5⟩)], [("f", 3)],
          none⟩ "f" 1 2 3
          (lookupM (MergeSt.nHashes ⟨[("f", ⟨3, "h0", 5⟩)], [], [("f", "h0")], [("f", 5)],
            none, 0⟩) "f") with
      | .error e => .error e
      | .ok true =>
        replaceWithPrior ⟨[("f", 1)], [("f", "h0")], [("f", ⟨2, "hp", 5⟩)], [("f", 3)], none⟩ "f"
          (if consultsPrior ⟨[("f", 1)], [("f", "h0")], [("f", ⟨2, "hp", 5⟩)], [("f", 3)], none⟩
              "f" 1 2 3
              (lookupM (MergeSt.nHashes ⟨[("f", ⟨3, "h0", 5⟩)], [], [("f", "h0")], [("f", 5)],
                none, 0⟩) "f")
           then loadPrior ⟨[("f", 1)], [("f", "h0")], [("f", ⟨2, "hp", 5⟩)], [("f", 3)], none⟩
             ⟨[("f", ⟨3, "h0", 5⟩)], [], [("f", "h0")], [("f", 5)], none, 0⟩
           else ⟨[("f", ⟨3, "h0", 5⟩)], [], [("f", "h0")], [("f", 5)], none, 0⟩)
      | .ok false =>
        .ok (if consultsPrior ⟨[("f", 1)], [("f", "h0")], [("f", ⟨2, "hp", 5⟩)], [("f", 3)],
                none⟩ "f" 1 2 3
                (lookupM (MergeSt.nHashes ⟨[("f", ⟨3, "h0", 5⟩)], [], [("f", "h0")], [("f", 5)],
                  none, 0⟩) "f")
             then loadPrior ⟨[("f", 1)], [("f", "h0")], [("f", ⟨2, "hp", 5⟩)], [("f", 3)], none⟩
               ⟨[("f", ⟨3, "h0", 5⟩)], [], [("f", "h0")], [("f", 5)], none, 0⟩
             else ⟨[("f", ⟨3, "h0", 5⟩)], [], [("f", "h0")], [("f", 5)], none, 0⟩) :=
  merge_all_present_cascade ⟨[("f", 1)], [("f", "h0")], [("f", ⟨2, "hp", 5⟩)], [("f", 3)], none⟩
    "f" 1 2 3 ⟨[("f", ⟨3, "h0", 5⟩)], [], [("f", "h0")], [("f", 5)], none, 0⟩ (Or.inl rfl)

/-- C3: for a path present in base and new but deleted by prior, the merge
removes the working-tree file and the path's `n_hashes`/`n_sizes` entries
exactly when new's content is provably identical to base's (same inode token,
or same recorded hash), and otherwise changes nothing. -/
theorem merge_prior_deleted (ctx : MergeCtx) (path : String) (st : MergeSt)
    (bIno nIno : Nat) (bHash nHash : String)
    (hb : lookupM ctx.baseInodes path = some bIno)
    (hp : lookupM (priorInodes ctx) path = none)
    (hn : lookupM ctx.nInodes path = some nIno)
    (hbh : lookupM ctx.baseHashes path = some bHash)
    (hnh : lookupM st.nHashes path = some nHash)
    (ht : memM st.temp path = true) :
    mergeStep ctx path st =
      if bIno = nIno ∨ bHash = nHash then
        .ok { st with temp := eraseM st.temp path,
                      nHashes := eraseM st.nHashes path,
                      nSizes := eraseM st.nSizes path }
      else .ok st := by
  unfold mergeStep
  simp only [hb, hp, hn, hbh, hnh]
  unfold contentMatches
  by_cases h1 : bIno = nIno
  · simp [h1, ht]
  · by_cases h2 : bHash = nHash
    · simp [h1, h2, ht]
    · simp [h1, h2]

/-- C4 counterexample: when the prior projection load returns absent
(`load_paths` yields `None`) and two prior-only paths each need prior data, the
merge invokes the loader twice (`loadCount = 2`) — refuting "no merge call ever
invokes the load a second time". -/
theorem merge_load_twice_cex :
    merge ⟨[], [], [("a", ⟨1, "h1", 4⟩), ("b", ⟨2, "h2", 5⟩)], [], none⟩ [] [] [] [] =
      .ok ⟨[("a", ⟨1, "h1", 4⟩), ("b", ⟨2, "h2", 5⟩)], [], [("a", "h1"), ("b", "h2")],
        [("a", 4), ("b", 5)], none, 2⟩ := by
  rfl

/-- C4 (amended): when the projection load returns a mapping, it is invoked at
most once per merge call, lazily; and when every prior path already agrees (by
inode) with new or with base — so no path needs prior-revision data — it is
never invoked at all. (When the load returns absent, it may be retried for
each later path that needs prior data.) -/
theorem merge_load_lazy (ctx : MergeCtx) (temp0 : SMap FSFile) (dirs0 : List String)
    (nh0 : SMap String) (ns0 : SMap Nat) :
    (∀ mres st', ctx.loadResult = some mres → merge ctx temp0 dirs0 nh0 ns0 = .ok st' →
      st'.loadCount ≤ 1) ∧
    (priorAgrees ctx → ∀ st', merge ctx temp0 dirs0 nh0 ns0 = .ok st' →
      st'.loadCount = 0) := by
  constructor
  · intro mres st' hm hok
    have hJ := mergeLoop_cache_J ctx mres hm (allPaths ctx) ⟨temp0, dirs0, nh0, ns0, none, 0⟩
      st' (Or.inl ⟨rfl, rfl⟩) hok
    rcases hJ with ⟨_, h0⟩ | ⟨_, h1⟩
    · have : st'.loadCount = 0 := h0
      omega
    · have : st'.loadCount = 1 := h1
      omega
  · intro hag st' hok
    have hc := mergeLoop_cache_noload ctx hag (allPaths ctx) ⟨temp0, dirs0, nh0, ns0, none, 0⟩
      st' hok
    exact congrArg Prod.snd hc

/-- C4 witness: with a successfully loaded (empty) projection and one adopted
prior path, the load count is at most one; and in a prior-agrees configuration
the loader is never invoked. -/
theorem merge_load_lazy_witness :
    (MergeSt.mk [("a", ⟨1, "h", 4⟩)] [] [("a", "h")] [("a", 4)] (some []) 1).loadCount ≤ 1 ∧
    (MergeSt.mk [("a", ⟨1, "hn", 3⟩)] [] [("a", "hn")] [("a", 3)] none 0).loadCount = 0 := by
  constructor
  · exact (merge_load_lazy ⟨[], [], [("a", ⟨1, "h", 4⟩)], [], some []⟩ [] [] [] []).1 []
      (MergeSt.mk [("a", ⟨1, "h", 4⟩)] [] [("a", "h")] [("a", 4)] (some []) 1) rfl (by rfl)
  · refine (merge_load_lazy ⟨[("a", 1)], [], [("a", ⟨1, "hb", 3⟩)], [("a", 1)], none⟩
      [("a", ⟨1, "hn", 3⟩)] [] [("a", "hn")] [("a", 3)]).2 ?_
      (MergeSt.mk [("a", ⟨1, "hn", 3⟩)] [] [("a", "hn")] [("a", 3)] none 0) (by rfl)
    intro path f hf
    by_cases hp : "a" = path
    · simp only [lookupM, if_pos hp] at hf
      injection hf with hf
      subst hf
      left
      simp [lookupM, hp]
    · simp only [lookupM, if_neg hp] at hf
      exact Option.noConfusion hf

/-- C10 counterexample: a call in which path `a` is present in both
`base_inodes` and `n_inodes` while `base_hashes` lacks it — yet the merge
succeeds without any KeyError, because prior's inode equals new's inode and
the all-present cascade returns before ever indexing the hash maps. -/
theorem merge_missing_hash_cex :
    memM ([("a", (1 : Nat))] : SMap Nat) "a" = true ∧
    memM ([("a", (5 : Nat))] : SMap Nat) "a" = true ∧
    memM ([] : SMap String) "a" = false ∧
    merge ⟨[("a", 1)], [], [("a", ⟨5, "hp", 7⟩)], [("a", 5)], none⟩
        [("a", ⟨5, "hn", 7⟩)] [] [] [] =
      .ok ⟨[("a", ⟨5, "hn", 7⟩)], [], [], [], none, 0⟩ :=
  ⟨rfl, rfl, rfl, rfl⟩

/-- C10 (amended): merge's `base_hashes[path]`/`n_hashes[path]` lookups are
unguarded — in any context, a path present in base and new whose prior side is
absent reaches the `base_hashes[path]` lookup, and a missing key there makes
the merge step fail with a KeyError — but under the precondition that both
hash maps cover every path present in both inode maps, no merge call ever
fails with a KeyError. -/
theorem merge_keyerror_guard (ctx : MergeCtx) (temp0 : SMap FSFile) (dirs0 : List String)
    (nh0 : SMap String) (ns0 : SMap Nat) :
    (hashCoverage ctx nh0 → merge ctx temp0 dirs0 nh0 ns0 ≠ .error .keyError) ∧
    (∀ path st bIno nIno, lookupM ctx.baseInodes path = some bIno →
      lookupM (priorInodes ctx) path = none →
      lookupM ctx.nInodes path = some nIno →
      lookupM ctx.baseHashes path = none →
      mergeStep ctx path st = .error .keyError) := by
  constructor
  · intro hcov
    exact mergeLoop_no_keyerror ctx (allPaths ctx) (allPaths_nodup ctx)
      ⟨temp0, dirs0, nh0, ns0, none, 0⟩ (fun q _ hb hn => hcov q hb hn)
  · intro path st bIno nIno hb hp hn hbh
    unfold mergeStep
    simp only [hb, hp, hn, hbh]

/-- C10 witness: a coverage-satisfying call (everything empty) cannot fail
with a KeyError, and a satisfiable reached-lookup configuration — path `x` in
base and new, absent from prior, missing from `base_hashes` — does fail with
the KeyError. -/
theorem merge_keyerror_guard_witness :
    (merge ⟨[], [], [], [], none⟩ [] [] [] [] ≠ .error .keyError) ∧
    mergeStep ⟨[("x", 1)], [], [], [("x", 5)], none⟩ "x"
      ⟨[("x", ⟨5, "hn", 7⟩)], [], [], [], none, 0⟩ = .error .keyError :=
  ⟨(merge_keyerror_guard ⟨[], [], [], [], none⟩ [] [] [] []).1
      (by
        intro q hb hn
        simp [memM, lookupM] at hb),
    (merge_keyerror_guard ⟨[("x", 1)], [], [], [("x", 5)], none⟩ [] [] [] []).2 "x"
      ⟨[("x", ⟨5, "hn", 7⟩)], [], [], [], none, 0⟩ 1 5 rfl rfl rfl rfl⟩

/-- C3 witness: base and new record the same hash on different inodes while
prior deleted the path — the deletion applies, erasing file and entries. -/
theorem merge_prior_deleted_witness :
    mergeStep ⟨[("r", 1)], [("r", "hb")], [], [("r", 2)], none⟩ "r"
        ⟨[("r", ⟨2, "hb", 4⟩)], [], [("r", "hb")], [("r", 4)], none, 0⟩ =
      if (1 = 2 ∨ "hb" = "hb") then
        .ok { (⟨[("r", ⟨2, "hb", 4⟩)], [], [("r", "hb")], [("r", 4)], none, 0⟩ : MergeSt) with
          temp := eraseM [("r", ⟨2, "hb", 4⟩)] "r",
          nHashes := eraseM [("r", "hb")] "r",
          nSizes := eraseM [("r", 4)] "r" }
      else .ok ⟨[("r", ⟨2, "hb", 4⟩)], [], [("r", "hb")], [("r", 4)], none, 0⟩ :=
  merge_prior_deleted ⟨[("r", 1)], [("r", "hb")], [], [("r", 2)], none⟩ "r"
    ⟨[("r", ⟨2, "hb", 4⟩)], [], [("r", "hb")], [("r", 4)], none, 0⟩ 1 2 "hb" "hb"
    (by rfl) (by rfl) (by rfl) (by rfl) (by rfl) (by rfl)

end ATR
